import Mathlib

/-!
Verification of the multi-track fragment synchronization engine:
the per-track segment ledgers (`src/yt_dlp/timeline.py` Policy A, and
`src/yt_dlp/downloader/utils/timeline.py` `HlsTimeline` / `DashTimeline`),
the cross-track pacing coordinator (`src/yt_dlp/downloader/utils/playback.py`
`Playback`), and the incremental-diff ledger
(`src/yt_dlp/downloader/utils/processing_list.py` `NonDuplicateProcessingList`).

Times are rationals (the Python floats never hit rounding in the claims
considered; all comparisons in the source are order comparisons).
Python's `end` dict key is rendered as the field `stop` (`end` is a Lean
keyword).  A Python `max()` / `min()` over an empty sequence raises
`ValueError`; partial results are `Option`-valued, `none` marking that crash.
-/

/-- Embeds Python's `max(xs)` over a list of rationals: `none` on the empty
list (where CPython raises `ValueError`). -/
def maxQ? : List ℚ → Option ℚ
  | [] => none
  | x :: xs =>
    some (match maxQ? xs with
      | none => x
      | some m => max x m)

/-- Embeds Python's `min(xs)` over a list of rationals: `none` on the empty
list (where CPython raises `ValueError`). -/
def minQ? : List ℚ → Option ℚ
  | [] => none
  | x :: xs =>
    some (match minQ? xs with
      | none => x
      | some m => min x m)

/-- Embeds Python's `math.isclose(a, b)`: true iff
`abs(a-b) <= max(rel_tol * max(abs(a), abs(b)), abs_tol)`. -/
def isclose (relTol absTol a b : ℚ) : Prop :=
  |a - b| ≤ max (relTol * max |a| |b|) absTol

instance (relTol absTol a b : ℚ) : Decidable (isclose relTol absTol a b) :=
  inferInstanceAs (Decidable (_ ≤ _))

namespace PolicyA

/-- Embeds `Segment` from `src/yt_dlp/timeline.py`: a half-open interval
`[start, stop)` carrying an opaque payload (`data`; `none` plays the role of
Python's `None`). -/
structure Segment (α : Type) where
  start : ℚ
  stop : ℚ
  data : Option α
deriving DecidableEq

/-- Embeds `TimelineSegment` from `src/yt_dlp/timeline.py`: a stored segment,
additionally flagged `filling` when it was synthesized to bridge a gap. -/
structure TimelineSegment (α : Type) where
  start : ℚ
  stop : ℚ
  data : Option α
  filling : Bool
deriving DecidableEq

/-- Embeds `Timeline._insert_timeline_segment`: append a copy of the segment
with the given `filling` flag. -/
def insertTimelineSegment {α : Type} (segments : List (TimelineSegment α))
    (segment : Segment α) (filling : Bool) : List (TimelineSegment α) :=
  segments ++ [⟨segment.start, segment.stop, segment.data, filling⟩]

/-- Embeds `Timeline.insert_one` from `src/yt_dlp/timeline.py` (Policy A,
gap-filling).  The source's `math.isclose(..., abs_tol=0.01)` keeps Python's
default `rel_tol=1e-9`. -/
def insertOne {α : Type} (segments : List (TimelineSegment α)) (s : Segment α) :
    List (TimelineSegment α) :=
  match segments.getLast? with
  | none => insertTimelineSegment segments s false
  | some last =>
    if s.start < last.stop then segments
    else if isclose (1 / 10 ^ 9) (1 / 100) last.stop s.start then
      insertTimelineSegment segments s false
    else
      insertTimelineSegment (insertTimelineSegment segments ⟨last.stop, s.start, none⟩ true) s false

/-- Embeds `Timeline.insert_many`: apply `insert_one` in the given order. -/
def insertMany {α : Type} (segments : List (TimelineSegment α)) (ss : List (Segment α)) :
    List (TimelineSegment α) :=
  ss.foldl insertOne segments

/-- The spec's per-timeline ordering invariant:
`segments[i].end <= segments[i+1].start` for all adjacent pairs. -/
def ordered {α : Type} (segments : List (TimelineSegment α)) : Prop :=
  List.Chain' (fun a b => a.stop ≤ b.start) segments

end PolicyA

namespace Hls

/-- Embeds a fragment consumed by `HlsTimeline` in
`src/yt_dlp/downloader/utils/timeline.py`: `start`/`stop` may be `none` (the
`BaseFragment` TypedDict declares them `Optional`); `media_sequence` and
`duration` are read unconditionally by `insert_one`; `payload` stands for the
remaining dict entries carried through by `{**new_segment, ...}`. -/
structure Fragment (α : Type) where
  start : Option ℚ
  stop : Option ℚ
  media_sequence : ℤ
  duration : ℚ
  payload : α
deriving DecidableEq

/-- Embeds `HlsTimeline.insert_one` (Policy B, sequence-numbered).  The result
is `none` when the Python code would raise a `TypeError`
(`last['end'] + duration` with `last['end'] = None`); the `Bool` records
whether the non-continuity diagnostic was printed. -/
def insertOne {α : Type} (segments : List (Fragment α)) (newSegment : Fragment α) :
    Option (List (Fragment α) × Bool) :=
  match segments.getLast? with
  | none => some (segments ++ [newSegment], false)
  | some last =>
    let mediaSequenceDifference := last.media_sequence - newSegment.media_sequence
    if 0 ≤ mediaSequenceDifference then some (segments, false)
    else
      let diag := decide (mediaSequenceDifference < -1)
      if mediaSequenceDifference = -1 then
        match last.stop with
        | none => none
        | some e =>
          some (segments ++
            [{ newSegment with start := some e, stop := some (e + newSegment.duration) }], diag)
      else some (segments ++ [newSegment], diag)

/-- The spec's ordering invariant specialized to optionally-timed fragments:
adjacent stored times satisfy `end <= start` whenever both are present. -/
def orderedOpt {α : Type} (segments : List (Fragment α)) : Prop :=
  List.Chain' (fun a b => ∀ x y, a.stop = some x → b.start = some y → x ≤ y) segments

end Hls

namespace Dash

/-- Embeds a raw fragment handed to `DashTimeline.insert_one` in
`src/yt_dlp/downloader/utils/timeline.py`: `start`/`stop` may be missing
(`None`); `payload` stands for the remaining dict entries. -/
structure Fragment (α : Type) where
  start : Option ℚ
  stop : Option ℚ
  payload : α
deriving DecidableEq

/-- A stored DASH segment: `DashTimeline.insert_one` only appends fragments
whose `start`/`stop` passed the `None` check (possibly with `start` clamped
to the previous segment's end), so stored times are plain rationals. -/
structure Stored (α : Type) where
  start : ℚ
  stop : ℚ
  payload : α
deriving DecidableEq

/-- Embeds `DashTimeline.insert_one` (Policy B, tolerance-based variant,
`tolerance = 0.1`, `math.isclose(..., abs_tol=tolerance, rel_tol=0)`).  The
`Bool` records whether the non-continuity diagnostic was printed. -/
def insertOne {α : Type} (segments : List (Stored α)) (newSegment : Fragment α) :
    List (Stored α) × Bool :=
  match newSegment.start, newSegment.stop with
  | some s, some e =>
    (match segments.getLast? with
     | none => (segments ++ [⟨s, e, newSegment.payload⟩], false)
     | some last =>
       if s < last.stop - 1 / 10 then (segments, false)
       else if isclose 0 (1 / 10) last.stop s then
         (segments ++ [⟨last.stop, e, newSegment.payload⟩], false)
       else (segments ++ [⟨s, e, newSegment.payload⟩], true))
  | _, _ => (segments, false)

/-- Embeds `Timeline.insert_many` specialized to `DashTimeline`: apply
`insert_one` in order (diagnostics go to stdout, only the ledger threads). -/
def insertMany {α : Type} (segments : List (Stored α)) (fs : List (Fragment α)) :
    List (Stored α) :=
  fs.foldl (fun acc f => (insertOne acc f).1) segments

/-- The spec's per-timeline ordering invariant for stored DASH segments. -/
def ordered {α : Type} (segments : List (Stored α)) : Prop :=
  List.Chain' (fun a b => a.stop ≤ b.start) segments

end Dash

namespace PL

/-- Embeds `NonDuplicateProcessingList` from
`src/yt_dlp/downloader/utils/processing_list.py`: an insertion-ordered map
(a Python 3.7+ dict, modelled as an association list in insertion order)
together with the `head_key` mark. -/
structure State (K α : Type) where
  processing_list : List (K × α)
  head_key : Option K
deriving DecidableEq

/-- Embeds `NonDuplicateProcessingList._exists`. -/
def existsKey {K α : Type} [DecidableEq K] (s : State K α) (key : K) : Bool :=
  s.processing_list.any (fun p => decide (p.1 = key))

/-- Embeds `NonDuplicateProcessingList.insert`: no-op on an existing key,
otherwise append at the end of the insertion order. -/
def insert {K α : Type} [DecidableEq K] (s : State K α) (key : K) (value : α) : State K α :=
  if existsKey s key then s
  else { s with processing_list := s.processing_list ++ [(key, value)] }

/-- Embeds `NonDuplicateProcessingList.insert_many`. -/
def insertMany {K α : Type} [DecidableEq K] (s : State K α) (newItems : List (K × α)) :
    State K α :=
  newItems.foldl (fun acc p => insert acc p.1 p.2) s

/-- The last key of the ledger, Python's `processing_list_keys[-1]`. -/
def lastKey {K α : Type} (l : List (K × α)) : Option K :=
  l.getLast?.map Prod.fst

/-- Embeds Python's `list.index`: index of the first entry with the given
key. -/
def keyIndex? {K α : Type} [DecidableEq K] (key : K) : List (K × α) → Option ℕ
  | [] => none
  | p :: ps => if p.1 = key then some 0 else (keyIndex? key ps).map (· + 1)

/-- Embeds `NonDuplicateProcessingList.seek`.  The outer `Option` marks the
`ValueError` CPython would raise if `head_key` were absent from the keys
(impossible for states built through the API, as proved below); the inner
`Option` is the source's `None` ("nothing new") versus the map of new
entries in insertion order. -/
def seek {K α : Type} [DecidableEq K] (s : State K α) :
    Option (Option (List (K × α)) × State K α) :=
  match s.processing_list with
  | [] => some (none, s)
  | e :: es =>
    match s.head_key with
    | none => some (some (e :: es), { s with head_key := lastKey (e :: es) })
    | some h =>
      match keyIndex? h (e :: es) with
      | none => none
      | some headKeyIndex =>
        let seekList := (e :: es).drop (headKeyIndex + 1)
        if seekList.isEmpty then some (none, s)
        else some (some seekList, { s with head_key := lastKey seekList })

/-- States reachable from the empty ledger through the public API. -/
inductive Reach {K α : Type} [DecidableEq K] : State K α → Prop where
  | empty : Reach ⟨[], none⟩
  | ins {s : State K α} (k : K) (v : α) : Reach s → Reach (insert s k v)
  | sk {s : State K α} {o : Option (List (K × α))} {s' : State K α} :
      Reach s → seek s = some (o, s') → Reach s'

/-- The prefix of the ledger already delivered to the consumer: every entry
up to and including the marked key. -/
def delivered {K α : Type} [DecidableEq K] (s : State K α) : List (K × α) :=
  match s.head_key with
  | none => []
  | some h =>
    match keyIndex? h s.processing_list with
    | none => []
    | some i => s.processing_list.take (i + 1)

end PL

namespace PB

/-- A segment as consumed by `Playback` in
`src/yt_dlp/downloader/utils/playback.py`: `seek` reads only the numeric
`start` and `end` times. -/
structure Seg where
  start : ℚ
  stop : ℚ
deriving DecidableEq

/-- A timeline as seen by `Playback`: an identifier and its stored segments in
stored order. -/
structure Timeline where
  timeline_id : ℕ
  segments : List Seg
deriving DecidableEq

/-- Embeds the `Playback` state: timelines, span, and cursor. -/
structure State where
  timelines : List Timeline
  span_start : ℚ
  span_end : ℚ
  cursor : ℚ
deriving DecidableEq

/-- Embeds `Playback.__init__`: the cursor starts at the span start. -/
def mkPlayback (timelines : List Timeline) (span : ℚ × ℚ) : State :=
  ⟨timelines, span.1, span.2, span.1⟩

/-- Embeds `get_filtered_segments` with the filter used by
`_get_next_cursor`: the segments with `end >= cursor`. -/
def relevantSegments (cursor : ℚ) (tl : Timeline) : List Seg :=
  tl.segments.filter (fun seg => decide (cursor ≤ seg.stop))

/-- Embeds `cut_section` in `Playback._get_next_cursor`: the loop breaks at
the first segment with `start >= span_end` and keeps the prefix before it. -/
def cutSection (spanEnd : ℚ) (timelineSegments : List Seg) : List Seg :=
  timelineSegments.takeWhile (fun seg => decide (seg.start < spanEnd))

/-- The per-timeline maxima `max(segment['end'] for segment in ...)` of
`_get_next_cursor`: `none` when some inner `max()` raises on an empty
sequence. -/
def collectMaxima : List (List Seg) → Option (List ℚ)
  | [] => some []
  | l :: ls =>
    match maxQ? (l.map Seg.stop), collectMaxima ls with
    | some m, some ms => some (m :: ms)
    | _, _ => none

/-- Embeds `Playback._get_next_cursor`; `none` marks the `ValueError` CPython
raises when `max` or `min` is applied to an empty sequence. -/
def getNextCursor (st : State) : Option ℚ :=
  let timelinesSegments := st.timelines.map (relevantSegments st.cursor)
  if timelinesSegments.any List.isEmpty then some st.cursor
  else
    match collectMaxima (timelinesSegments.map (cutSection st.span_end)) with
    | none => none
    | some ms => minQ? ms

/-- Result of a `seek` call that did not escape with `ValueError`. -/
inductive SeekRes where
  | finish : SeekRes
  | batch : List (Timeline × List Seg) → SeekRes
deriving DecidableEq

/-- The batch built by the loop in `Playback.seek`: per timeline, in timeline
order, the segments with `cursor <= start < next_cursor`, keeping only the
non-empty `(timeline, segments)` pairs. -/
def seekBatch (st : State) (nextCursor : ℚ) : List (Timeline × List Seg) :=
  (st.timelines.map (fun tl =>
    (tl, tl.segments.filter
      (fun seg => decide (st.cursor ≤ seg.start ∧ seg.start < nextCursor))))).filter
    (fun p => !p.2.isEmpty)

/-- Embeds `Playback.seek`: `none` marks a `ValueError` escape;
`some (.finish, st)` is the `PlaybackFinish` raise (before any mutation);
`some (.batch b, st')` returns the batch and advances the cursor. -/
def seek (st : State) : Option (SeekRes × State) :=
  match getNextCursor st with
  | none => none
  | some nextCursor =>
    if st.span_end ≤ nextCursor then some (.finish, st)
    else some (.batch (seekBatch st nextCursor), { st with cursor := nextCursor })

/-- Claim-side (C1) per-timeline candidate set, in the claim's own filter
formulation: the segments with `end >= cursor` and `start < span.end`. -/
def relevantWindow (st : State) (tl : Timeline) : List Seg :=
  tl.segments.filter (fun seg => decide (st.cursor ≤ seg.stop ∧ seg.start < st.span_end))

/-- Claim-side (C1) next cursor: the minimum over all timelines of the
maximum `end` among that timeline's relevant in-window segments. -/
def claimNextCursor (st : State) : Option ℚ :=
  match collectMaxima (st.timelines.map (relevantWindow st)) with
  | none => none
  | some ms => minQ? ms

/-- A timeline whose stored segments are in nondecreasing `start` order. -/
def startSorted (tl : Timeline) : Prop :=
  List.Pairwise (fun a b => a.start ≤ b.start) tl.segments

/-- One observable `seek` transition: `seek` returned or raised
`PlaybackFinish` (both leave a well-defined state; a `ValueError` escape has
no successor state). -/
inductive SeekStep : State → State → Prop where
  | mk {st : State} {r : SeekRes} {st' : State} :
      seek st = some (r, st') → SeekStep st st'

end PB

/-- Helper: `isclose` holds whenever the absolute difference is within the
absolute tolerance. -/
theorem isclose_of_abs_le {relTol absTol a b : ℚ} (h : |a - b| ≤ absTol) :
    isclose relTol absTol a b :=
  le_trans h (le_max_right _ _)

/-- Helper: the Policy-A rejection branch compares `last.stop > s.start`
directly, so any strictly smaller incoming start is a no-op. -/
theorem PolicyA.insertOne_reject {α : Type} (tl : List (PolicyA.TimelineSegment α))
    (last : PolicyA.TimelineSegment α) (s : PolicyA.Segment α)
    (h : s.start < last.stop) :
    PolicyA.insertOne (tl ++ [last]) s = tl ++ [last] := by
  simp only [PolicyA.insertOne, List.getLast?_concat]
  simp [h]

/-- Helper: the Policy-A touching branch appends the segment as given. -/
theorem PolicyA.insertOne_touch {α : Type} (tl : List (PolicyA.TimelineSegment α))
    (last : PolicyA.TimelineSegment α) (s : PolicyA.Segment α)
    (hle : last.stop ≤ s.start)
    (hclose : isclose (1 / 10 ^ 9) (1 / 100) last.stop s.start) :
    PolicyA.insertOne (tl ++ [last]) s =
      tl ++ [last, ⟨s.start, s.stop, s.data, false⟩] := by
  simp only [PolicyA.insertOne, List.getLast?_concat]
  rw [if_neg (by exact not_lt.mpr hle), if_pos hclose]
  simp [PolicyA.insertTimelineSegment]

/-- Helper: the Policy-A gap branch synthesizes a filler and then appends the
given segment. -/
theorem PolicyA.insertOne_gap {α : Type} (tl : List (PolicyA.TimelineSegment α))
    (last : PolicyA.TimelineSegment α) (s : PolicyA.Segment α)
    (hlt : ¬ s.start < last.stop)
    (hnotclose : ¬ isclose (1 / 10 ^ 9) (1 / 100) last.stop s.start) :
    PolicyA.insertOne (tl ++ [last]) s =
      tl ++ [last, ⟨last.stop, s.start, none, true⟩, ⟨s.start, s.stop, s.data, false⟩] := by
  simp only [PolicyA.insertOne, List.getLast?_concat]
  rw [if_neg hlt, if_neg hnotclose]
  simp [PolicyA.insertTimelineSegment]

/-- C4: on a Policy-A timeline with last stored segment `last`, inserting a
segment whose start exceeds `last.stop` by more than the isclose tolerance
appends exactly a synthetic filler `[last.stop, s.start)` with `data = none`,
`filling = true`, followed by the given segment unchanged with
`filling = false`. -/
theorem C4_policyA_gap_fill {α : Type} (tl : List (PolicyA.TimelineSegment α))
    (last : PolicyA.TimelineSegment α) (s : PolicyA.Segment α)
    (hgap : max (1 / 10 ^ 9 * max |last.stop| |s.start|) (1 / 100) < s.start - last.stop) :
    PolicyA.insertOne (tl ++ [last]) s =
      tl ++ [last, ⟨last.stop, s.start, none, true⟩, ⟨s.start, s.stop, s.data, false⟩] := by
  have hpos : (0 : ℚ) < s.start - last.stop :=
    lt_of_le_of_lt (le_max_right _ _) hgap |>.trans_le' (by norm_num)
  have hlt : ¬ s.start < last.stop := by
    intro h
    have : s.start - last.stop < 0 := by linarith
    linarith
  have hnotclose : ¬ isclose (1 / 10 ^ 9) (1 / 100) last.stop s.start := by
    unfold isclose
    rw [not_le, abs_sub_comm, abs_of_pos hpos]
    exact hgap
  exact PolicyA.insertOne_gap tl last s hlt hnotclose

/-- C4 witness: inserting `[0,5)` then `[10,15)` into an empty Policy-A
timeline yields `[0,5,false]`, `[5,10,true]`, `[10,15,false]`. -/
theorem C4_policyA_gap_fill_witness :
    max ((1 : ℚ) / 10 ^ 9 * max |(5 : ℚ)| |(10 : ℚ)|) (1 / 100) < 10 - 5 ∧
    PolicyA.insertMany ([] : List (PolicyA.TimelineSegment ℕ))
        [⟨0, 5, some 0⟩, ⟨10, 15, some 1⟩] =
      [⟨0, 5, some 0, false⟩, ⟨5, 10, none, true⟩, ⟨10, 15, some 1, false⟩] := by
  constructor
  · norm_num
  · have h1 : PolicyA.insertMany ([] : List (PolicyA.TimelineSegment ℕ))
        [⟨0, 5, some 0⟩, ⟨10, 15, some 1⟩] =
        PolicyA.insertOne ([] ++ [⟨0, 5, some 0, false⟩]) ⟨10, 15, some 1⟩ := by
      simp [PolicyA.insertMany, PolicyA.insertOne, PolicyA.insertTimelineSegment]
    rw [h1, C4_policyA_gap_fill [] ⟨0, 5, some 0, false⟩ ⟨10, 15, some 1⟩ (by norm_num)]
    simp

/-- C5 counterexample: with last stored segment `[0,5)`, the incoming segment
`[4.995, 9)` starts slightly before `last.stop = 5` yet within the `0.01`
tolerance (`isclose` holds), so the claim says it is appended with
`filling = false`; the code's first check `last.end > segment.start` fires
first and the insertion is a no-op. -/
theorem C5_policyA_counterexample :
    isclose (1 / 10 ^ 9) (1 / 100) 5 (4995 / 1000) ∧
    (4995 / 1000 : ℚ) < 5 ∧
    PolicyA.insertOne [(⟨0, 5, some 0, false⟩ : PolicyA.TimelineSegment ℕ)]
        ⟨4995 / 1000, 9, some 1⟩ =
      [⟨0, 5, some 0, false⟩] := by
  refine ⟨isclose_of_abs_le (by rw [abs_le]; constructor <;> norm_num), by norm_num, ?_⟩
  have h := PolicyA.insertOne_reject ([] : List (PolicyA.TimelineSegment ℕ))
    ⟨0, 5, some 0, false⟩ ⟨4995 / 1000, 9, some 1⟩ (by norm_num)
  simpa using h

/-- C5 amended: on a non-empty Policy-A timeline, `insert_one` is a no-op
whenever the incoming start is strictly before `last.stop` (by any amount,
within tolerance or not); and when `last.stop ≤ s.start` with the two equal
within the isclose tolerance, the segment is appended as given with
`filling = false`. -/
theorem C5_policyA_reject_and_touch {α : Type} (tl : List (PolicyA.TimelineSegment α))
    (last : PolicyA.TimelineSegment α) (s : PolicyA.Segment α) :
    (s.start < last.stop → PolicyA.insertOne (tl ++ [last]) s = tl ++ [last]) ∧
    (last.stop ≤ s.start → isclose (1 / 10 ^ 9) (1 / 100) last.stop s.start →
      PolicyA.insertOne (tl ++ [last]) s =
        tl ++ [last, ⟨s.start, s.stop, s.data, false⟩]) :=
  ⟨PolicyA.insertOne_reject tl last s,
   PolicyA.insertOne_touch tl last s⟩

/-- C5 amended witness: `[0,5)` then `[4,9)` leaves one stored segment
(rejection), and `[0,5)` then `[5,9)` appends the touching segment as
given. -/
theorem C5_policyA_reject_and_touch_witness :
    ((4 : ℚ) < 5 ∧
      PolicyA.insertOne [(⟨0, 5, some 0, false⟩ : PolicyA.TimelineSegment ℕ)]
          ⟨4, 9, some 1⟩ =
        [⟨0, 5, some 0, false⟩]) ∧
    ((5 : ℚ) ≤ 5 ∧ isclose (1 / 10 ^ 9) (1 / 100) 5 5 ∧
      PolicyA.insertOne [(⟨0, 5, some 0, false⟩ : PolicyA.TimelineSegment ℕ)]
          ⟨5, 9, some 1⟩ =
        [⟨0, 5, some 0, false⟩, ⟨5, 9, some 1, false⟩]) := by
  constructor
  · refine ⟨by norm_num, ?_⟩
    have h := (C5_policyA_reject_and_touch ([] : List (PolicyA.TimelineSegment ℕ))
      ⟨0, 5, some 0, false⟩ ⟨4, 9, some 1⟩).1 (by norm_num)
    simpa using h
  · refine ⟨le_refl _, by unfold isclose; norm_num, ?_⟩
    have h := (C5_policyA_reject_and_touch ([] : List (PolicyA.TimelineSegment ℕ))
      ⟨0, 5, some 0, false⟩ ⟨5, 9, some 1⟩).2 (le_refl _) (by unfold isclose; norm_num)
    simpa using h

/-- C6: on a non-empty sequence-numbered (HLS) timeline,
`seq_gap = last.media_sequence - segment.media_sequence` drives a three-way
split: `seq_gap >= 0` is a no-op; `seq_gap == -1` appends the fragment with
`start` pinned to `last.end` and `end = last.end + duration` (given `last.end`
carries a numeric time, as the source's arithmetic presupposes); `seq_gap < -1`
records a non-fatal diagnostic and appends the fragment with its own reported
times, with no synthetic filler. -/
theorem C6_hls_sequence_cases {α : Type} (tl : List (Hls.Fragment α))
    (last : Hls.Fragment α) (s : Hls.Fragment α) :
    (0 ≤ last.media_sequence - s.media_sequence →
      Hls.insertOne (tl ++ [last]) s = some (tl ++ [last], false)) ∧
    (last.media_sequence - s.media_sequence = -1 → ∀ e, last.stop = some e →
      Hls.insertOne (tl ++ [last]) s =
        some (tl ++ [last, { s with start := some e, stop := some (e + s.duration) }], false)) ∧
    (last.media_sequence - s.media_sequence < -1 →
      Hls.insertOne (tl ++ [last]) s = some (tl ++ [last, s], true)) := by
  refine ⟨?_, ?_, ?_⟩
  · intro h
    simp only [Hls.insertOne, List.getLast?_concat]
    rw [if_pos h]
  · intro h e he
    simp only [Hls.insertOne, List.getLast?_concat]
    rw [if_neg (by omega), if_pos h, he]
    have : decide (last.media_sequence - s.media_sequence < -1) = false := by
      simp only [decide_eq_false_iff_not]
      omega
    rw [this]
    simp
  · intro h
    simp only [Hls.insertOne, List.getLast?_concat]
    rw [if_neg (by omega), if_neg (by omega)]
    have : decide (last.media_sequence - s.media_sequence < -1) = true := decide_eq_true h
    rw [this]
    simp

/-- C6 witness: from a stored fragment with sequence number 5, a duplicate
(sequence 5) is a no-op, the successor (sequence 6) is appended with derived
times `[10, 16)`, and a jump (sequence 9) is appended as reported with the
diagnostic flag set. -/
theorem C6_hls_sequence_cases_witness :
    (0 ≤ (5 : ℤ) - 5 ∧
      Hls.insertOne [(⟨some 0, some 10, 5, 10, 0⟩ : Hls.Fragment ℕ)] ⟨some 0, some 10, 5, 10, 1⟩ =
        some ([⟨some 0, some 10, 5, 10, 0⟩], false)) ∧
    ((5 : ℤ) - 6 = -1 ∧
      Hls.insertOne [(⟨some 0, some 10, 5, 10, 0⟩ : Hls.Fragment ℕ)] ⟨some 11, some 17, 6, 6, 2⟩ =
        some ([⟨some 0, some 10, 5, 10, 0⟩, ⟨some 10, some 16, 6, 6, 2⟩], false)) ∧
    ((5 : ℤ) - 9 < -1 ∧
      Hls.insertOne [(⟨some 0, some 10, 5, 10, 0⟩ : Hls.Fragment ℕ)] ⟨some 50, some 55, 9, 5, 3⟩ =
        some ([⟨some 0, some 10, 5, 10, 0⟩, ⟨some 50, some 55, 9, 5, 3⟩], true)) := by
  refine ⟨⟨by norm_num, ?_⟩, ⟨by norm_num, ?_⟩, ⟨by norm_num, ?_⟩⟩
  · have h := (C6_hls_sequence_cases ([] : List (Hls.Fragment ℕ))
      ⟨some 0, some 10, 5, 10, 0⟩ ⟨some 0, some 10, 5, 10, 1⟩).1 (by norm_num)
    simpa using h
  · have h := (C6_hls_sequence_cases ([] : List (Hls.Fragment ℕ))
      ⟨some 0, some 10, 5, 10, 0⟩ ⟨some 11, some 17, 6, 6, 2⟩).2.1 (by norm_num) 10 rfl
    norm_num at h
    simpa using h
  · have h := (C6_hls_sequence_cases ([] : List (Hls.Fragment ℕ))
      ⟨some 0, some 10, 5, 10, 0⟩ ⟨some 50, some 55, 9, 5, 3⟩).2.2 (by norm_num)
    simpa using h

/-- Helper: Policy-A `insert_one` preserves the adjacent ordering invariant. -/
theorem PolicyA.ordered_insertOne_gapFill {α : Type} (tl : List (PolicyA.TimelineSegment α))
    (s : PolicyA.Segment α) (h : PolicyA.ordered tl) :
    PolicyA.ordered (PolicyA.insertOne tl s) := by
  rcases List.eq_nil_or_concat tl with rfl | ⟨t0, last, rfl⟩
  · simp [PolicyA.insertOne, PolicyA.insertTimelineSegment, PolicyA.ordered]
  · rw [List.concat_eq_append] at h ⊢
    unfold PolicyA.ordered at h
    rw [List.chain'_append] at h
    obtain ⟨h0, -, hjoin⟩ := h
    by_cases hlt : s.start < last.stop
    · rw [PolicyA.insertOne_reject t0 last s hlt]
      unfold PolicyA.ordered
      rw [List.chain'_append]
      exact ⟨h0, List.chain'_singleton _, hjoin⟩
    · by_cases hclose : isclose (1 / 10 ^ 9) (1 / 100) last.stop s.start
      · rw [PolicyA.insertOne_touch t0 last s (not_lt.mp hlt) hclose]
        unfold PolicyA.ordered
        rw [List.chain'_append]
        refine ⟨h0, ?_, ?_⟩
        · exact List.chain'_cons.mpr ⟨not_lt.mp hlt, List.chain'_singleton _⟩
        · intro x hx y hy
          simp only [List.head?_cons, Option.mem_def, Option.some.injEq] at hy
          subst hy
          exact hjoin x hx last rfl
      · rw [PolicyA.insertOne_gap t0 last s hlt hclose]
        unfold PolicyA.ordered
        rw [List.chain'_append]
        refine ⟨h0, ?_, ?_⟩
        · exact List.chain'_cons.mpr ⟨le_refl _,
            List.chain'_cons.mpr ⟨le_refl _, List.chain'_singleton _⟩⟩
        · intro x hx y hy
          simp only [List.head?_cons, Option.mem_def, Option.some.injEq] at hy
          subst hy
          exact hjoin x hx last rfl

/-- Helper: DASH `insert_one` preserves the adjacent ordering invariant. -/
theorem Dash.ordered_insertOne_tolerance {α : Type} (tl : List (Dash.Stored α))
    (f : Dash.Fragment α) (h : Dash.ordered tl) :
    Dash.ordered (Dash.insertOne tl f).1 := by
  obtain ⟨fs, fe, fp⟩ := f
  match fs, fe with
  | none, _ => exact h
  | some s, none => exact h
  | some s, some e =>
    rcases List.eq_nil_or_concat tl with rfl | ⟨t0, last, rfl⟩
    · simp [Dash.insertOne, Dash.ordered]
    · rw [List.concat_eq_append] at h ⊢
      unfold Dash.ordered at h
      rw [List.chain'_append] at h
      obtain ⟨h0, -, hjoin⟩ := h
      simp only [Dash.insertOne, List.getLast?_concat]
      by_cases hlt : s < last.stop - 1 / 10
      · rw [if_pos hlt]
        unfold Dash.ordered
        rw [List.chain'_append]
        exact ⟨h0, List.chain'_singleton _, hjoin⟩
      · rw [if_neg hlt]
        by_cases hclose : isclose 0 (1 / 10) last.stop s
        · rw [if_pos hclose]
          unfold Dash.ordered
          rw [show t0 ++ [last] ++ [(⟨last.stop, e, fp⟩ : Dash.Stored α)] =
            t0 ++ ([last] ++ [⟨last.stop, e, fp⟩]) from by simp, List.chain'_append]
          refine ⟨h0, ?_, ?_⟩
          · exact List.chain'_cons.mpr ⟨le_refl _, List.chain'_singleton _⟩
          · intro x hx y hy
            simp only [List.cons_append, List.head?_cons, Option.mem_def,
              Option.some.injEq] at hy
            subst hy
            exact hjoin x hx last rfl
        · rw [if_neg hclose]
          have hle : last.stop ≤ s := by
            unfold isclose at hclose
            rw [not_le] at hclose
            rcases abs_cases (last.stop - s) with ⟨heq, -⟩ | ⟨heq, -⟩ <;>
              rw [heq] at hclose <;>
            · simp only [zero_mul, max_self] at hclose
              rw [max_eq_right (by norm_num : (0 : ℚ) ≤ 1 / 10)] at hclose
              linarith [not_lt.mp hlt]
          unfold Dash.ordered
          rw [show t0 ++ [last] ++ [(⟨s, e, fp⟩ : Dash.Stored α)] =
            t0 ++ ([last] ++ [⟨s, e, fp⟩]) from by simp, List.chain'_append]
          refine ⟨h0, ?_, ?_⟩
          · exact List.chain'_cons.mpr ⟨hle, List.chain'_singleton _⟩
          · intro x hx y hy
            simp only [List.cons_append, List.head?_cons, Option.mem_def,
              Option.some.injEq] at hy
            subst hy
            exact hjoin x hx last rfl

/-- C7 counterexample: under the sequence-based policy, inserting fragment
`[0,10)` with sequence 5 and then `[2,3)` with sequence 8 (a sequence jump)
stores both, and the stored pair violates
`segments[0].end <= segments[1].start` (10 > 2), refuting the invariant for
"every insertion policy". -/
theorem C7_hls_counterexample :
    Hls.insertOne [(⟨some 0, some 10, 5, 10, 0⟩ : Hls.Fragment ℕ)] ⟨some 2, some 3, 8, 1, 1⟩ =
      some ([⟨some 0, some 10, 5, 10, 0⟩, ⟨some 2, some 3, 8, 1, 1⟩], true) ∧
    ¬ Hls.orderedOpt [(⟨some 0, some 10, 5, 10, 0⟩ : Hls.Fragment ℕ), ⟨some 2, some 3, 8, 1, 1⟩] := by
  constructor
  · norm_num [Hls.insertOne]
  · intro hord
    unfold Hls.orderedOpt at hord
    have h := (List.chain'_cons.mp hord).1 10 2 rfl rfl
    norm_num at h

/-- C7 amended: starting from an empty timeline, every sequence of
`insert_one` calls leaves the stored segments satisfying
`segments[i].end <= segments[i+1].start` for all adjacent pairs under Policy A
(gap-filling) and under the Policy-B tolerance-based (DASH) variant; the
sequence-numbered (HLS) policy does not guarantee it (see the
counterexample). -/
theorem C7_timeline_ordered {α β : Type} (ss : List (PolicyA.Segment α))
    (fs : List (Dash.Fragment β)) :
    PolicyA.ordered (PolicyA.insertMany [] ss) ∧ Dash.ordered (Dash.insertMany [] fs) := by
  constructor
  · have main : ∀ (l : List (PolicyA.Segment α)) (tl : List (PolicyA.TimelineSegment α)),
        PolicyA.ordered tl → PolicyA.ordered (PolicyA.insertMany tl l) := by
      intro l
      induction l with
      | nil => intro tl h; exact h
      | cons x xs ih =>
        intro tl h
        exact ih (PolicyA.insertOne tl x) (PolicyA.ordered_insertOne_gapFill tl x h)
    exact main ss [] (by simp [PolicyA.ordered])
  · have main : ∀ (l : List (Dash.Fragment β)) (tl : List (Dash.Stored β)),
        Dash.ordered tl → Dash.ordered (Dash.insertMany tl l) := by
      intro l
      induction l with
      | nil => intro tl h; exact h
      | cons x xs ih =>
        intro tl h
        exact ih ((Dash.insertOne tl x).1) (Dash.ordered_insertOne_tolerance tl x h)
    exact main fs [] (by simp [Dash.ordered])

/-- C9 counterexample: the sequence-based (HLS) policy appends a fragment with
both timing fields missing into an empty timeline instead of dropping it — the
stored list changes, refuting the claim for "every insertion policy". -/
theorem C9_hls_counterexample :
    Hls.insertOne ([] : List (Hls.Fragment ℕ)) ⟨none, none, 3, 2, 7⟩ =
      some ([⟨none, none, 3, 2, 7⟩], false) ∧
    ([(⟨none, none, 3, 2, 7⟩ : Hls.Fragment ℕ)] : List (Hls.Fragment ℕ)) ≠ [] :=
  ⟨rfl, by simp⟩

/-- C9 amended: only the tolerance-based (DASH) policy treats a segment with a
missing `start` or `end` as a silent no-op: the stored list is unchanged and
no diagnostic is recorded.  The sequence-based policy may append such a
fragment unchanged, and Policy A's segments carry both fields by type. -/
theorem C9_dash_malformed_noop {α : Type} (tl : List (Dash.Stored α))
    (f : Dash.Fragment α) (h : f.start = none ∨ f.stop = none) :
    Dash.insertOne tl f = (tl, false) := by
  obtain ⟨fs, fe, fp⟩ := f
  simp only at h
  rcases h with rfl | rfl
  · cases fe <;> rfl
  · cases fs <;> rfl

/-- C9 amended witness: a fragment with `start = None` is silently dropped by
the DASH policy. -/
theorem C9_dash_malformed_noop_witness :
    ((none : Option ℚ) = none ∨ (some (5 : ℚ) : Option ℚ) = none) ∧
    Dash.insertOne ([⟨0, 1, 4⟩] : List (Dash.Stored ℕ)) ⟨none, some 5, 9⟩ = ([⟨0, 1, 4⟩], false) :=
  ⟨Or.inl rfl, C9_dash_malformed_noop [⟨0, 1, 4⟩] ⟨none, some 5, 9⟩ (Or.inl rfl)⟩

/-- Helper: a list's optional last element is a member. -/
theorem getLast?_mem_self {β : Type} {l : List β} {p : β} (h : l.getLast? = some p) : p ∈ l := by
  cases l with
  | nil => simp at h
  | cons x xs =>
    have hne : x :: xs ≠ [] := by simp
    rw [List.getLast?_eq_getLast _ hne] at h
    injection h with h
    exact h ▸ List.getLast_mem hne

/-- Helper: the last key of a ledger is one of its keys. -/
theorem PL.lastKey_mem {K α : Type} [DecidableEq K] {l : List (K × α)} {k : K}
    (h : PL.lastKey l = some k) : k ∈ l.map Prod.fst := by
  unfold PL.lastKey at h
  obtain ⟨p, hp, hk⟩ := Option.map_eq_some'.mp h
  exact hk ▸ List.mem_map_of_mem Prod.fst (getLast?_mem_self hp)

/-- Helper: a present key has a first index. -/
theorem PL.keyIndex?_of_mem {K α : Type} [DecidableEq K] {l : List (K × α)} {k : K}
    (h : k ∈ l.map Prod.fst) : ∃ i, PL.keyIndex? k l = some i := by
  induction l with
  | nil => simp at h
  | cons p ps ih =>
    by_cases hp : p.1 = k
    · exact ⟨0, by simp [PL.keyIndex?, hp]⟩
    · have hmem : k ∈ ps.map Prod.fst := by
        rw [List.map_cons, List.mem_cons] at h
        rcases h with h1 | h1
        · exact absurd h1.symm hp
        · exact h1
      obtain ⟨i, hi⟩ := ih hmem
      exact ⟨i + 1, by simp [PL.keyIndex?, hp, hi]⟩

/-- Helper: with unique keys, the first index of the last key is the last
position. -/
theorem PL.keyIndex?_lastKey {K α : Type} [DecidableEq K] {l : List (K × α)} {k : K}
    (hn : (l.map Prod.fst).Nodup) (h : PL.lastKey l = some k) :
    PL.keyIndex? k l = some (l.length - 1) := by
  induction l with
  | nil => simp [PL.lastKey] at h
  | cons p ps ih =>
    cases ps with
    | nil =>
      have hk : p.1 = k := by simpa [PL.lastKey] using h
      simp [PL.keyIndex?, hk]
    | cons q qs =>
      have hlk : PL.lastKey (q :: qs) = some k := by
        unfold PL.lastKey at h ⊢
        rwa [List.getLast?_cons_cons] at h
      have hkmem : k ∈ (q :: qs).map Prod.fst := PL.lastKey_mem hlk
      rw [List.map_cons, List.nodup_cons] at hn
      have hp : ¬ p.1 = k := fun he => hn.1 (he ▸ hkmem)
      have hrec := ih hn.2 hlk
      rw [show PL.keyIndex? k (p :: q :: qs) =
        if p.1 = k then some 0 else (PL.keyIndex? k (q :: qs)).map (· + 1) from rfl]
      rw [if_neg hp, hrec, Option.map_some']
      simp only [List.length_cons, Option.some.injEq]
      omega

/-- Helper: a non-empty suffix obtained by `drop` keeps the ledger's last
key. -/
theorem PL.lastKey_drop {K α : Type} [DecidableEq K] {l : List (K × α)} {n : ℕ}
    (h : l.drop n ≠ []) : PL.lastKey (l.drop n) = PL.lastKey l := by
  unfold PL.lastKey
  congr 1
  conv_rhs => rw [← List.take_append_drop n l]
  rw [List.getLast?_append_of_ne_nil _ h]

/-- Helper: with unique keys, marking the last key means the whole ledger is
delivered. -/
theorem PL.delivered_full {K α : Type} [DecidableEq K] {l : List (K × α)} {k : K}
    (hn : (l.map Prod.fst).Nodup) (h : PL.lastKey l = some k) :
    PL.delivered ⟨l, some k⟩ = l := by
  have hne : l ≠ [] := by
    rintro rfl
    simp [PL.lastKey] at h
  have hlen : 1 ≤ l.length := List.length_pos.mpr hne
  simp only [PL.delivered]
  rw [PL.keyIndex?_lastKey hn h]
  simp only
  rw [List.take_of_length_le (by omega)]


/-- Helper: API-reachable ledgers have pairwise-distinct keys, and the mark,
when set, is one of the keys. -/
theorem PL.reach_invariant {K α : Type} [DecidableEq K] {s : PL.State K α}
    (h : PL.Reach s) :
    (s.processing_list.map Prod.fst).Nodup ∧
      ∀ k, s.head_key = some k → k ∈ s.processing_list.map Prod.fst := by
  induction h with
  | empty => simp
  | @ins s k v hr ih =>
    obtain ⟨hn, hh⟩ := ih
    unfold PL.insert
    by_cases he : PL.existsKey s k
    · rw [if_pos he]
      exact ⟨hn, hh⟩
    · rw [if_neg he]
      have hknotmem : k ∉ s.processing_list.map Prod.fst := by
        intro hmem
        obtain ⟨p, hp, hpk⟩ := List.mem_map.mp hmem
        exact he (List.any_eq_true.mpr ⟨p, hp, by simp [hpk]⟩)
      constructor
      · simp only [List.map_append, List.map_cons, List.map_nil]
        rw [List.nodup_append]
        refine ⟨hn, List.nodup_singleton _, ?_⟩
        intro a ha hb
        simp only [List.mem_singleton] at hb
        exact hknotmem (hb ▸ ha)
      · intro k' hk'
        simp only at hk'
        simp only [List.map_append]
        exact List.mem_append_left _ (hh k' hk')
  | @sk s o s' hr hs ih =>
    obtain ⟨hn, hh⟩ := ih
    rcases hl : s.processing_list with _ | ⟨e, es⟩
    · simp only [PL.seek, hl, Option.some.injEq, Prod.mk.injEq] at hs
      rw [← hs.2]
      exact ⟨hn, hh⟩
    · rcases hhk : s.head_key with _ | h0
      · simp only [PL.seek, hl, hhk, Option.some.injEq, Prod.mk.injEq] at hs
        rw [← hs.2]
        refine ⟨by simpa [hl] using hn, ?_⟩
        intro k' hk'
        simp only [hl] at hk' ⊢
        exact PL.lastKey_mem hk'
      · have hmem : h0 ∈ (e :: es).map Prod.fst := by
          rw [← hl]
          exact hh h0 hhk
        obtain ⟨i, hi⟩ := PL.keyIndex?_of_mem hmem
        simp only [PL.seek, hl, hhk, hi] at hs
        by_cases hre : (List.drop (i + 1) (e :: es)).isEmpty = true
        · simp only [hre, if_true, Option.some.injEq, Prod.mk.injEq] at hs
          rw [← hs.2]
          exact ⟨hn, hh⟩
        · have hfalse : (List.drop (i + 1) (e :: es)).isEmpty = false := by
            simpa using hre
          simp only [hfalse, Bool.false_eq_true, if_false, Option.some.injEq,
            Prod.mk.injEq] at hs
          rw [← hs.2]
          refine ⟨by simpa [hl] using hn, ?_⟩
          intro k' hk'
          simp only [hl] at hk' ⊢
          have hmem' := PL.lastKey_mem hk'
          have hsub : List.Sublist (((e :: es).drop (i + 1)).map Prod.fst)
              ((e :: es).map Prod.fst) :=
            (List.drop_sublist _ _).map Prod.fst
          exact hsub.subset hmem'

/-- C8: for every API-reachable ProcessingList state, `insert` on a present
key is a no-op; `seek` never raises, leaves the ledger unchanged, extends the
delivered prefix by exactly the returned batch, and afterwards the delivered
prefix is the entire ledger (the mark has advanced to the newest key) — so
the batch is precisely all entries past the mark, in insertion order: the
whole ledger on a first call, only the new entries afterwards, each delivered
exactly once.  `seek` returns `None` — never an empty map — iff nothing lies
past the mark (including on an empty ledger), and in that case leaves the
state untouched. -/
theorem C8_processing_list {K α : Type} [DecidableEq K] (s : PL.State K α)
    (hr : PL.Reach s) :
    (∀ k v, PL.existsKey s k = true → PL.insert s k v = s) ∧
    ∃ o s', PL.seek s = some (o, s') ∧
      s'.processing_list = s.processing_list ∧
      PL.delivered s' = s.processing_list ∧
      PL.delivered s' = PL.delivered s ++ o.getD [] ∧
      (o = none ↔ PL.delivered s = s.processing_list) ∧
      (o = none → s' = s) ∧
      ∀ l, o = some l → l ≠ [] := by
  obtain ⟨hn, hh⟩ := PL.reach_invariant hr
  refine ⟨fun k v he => by rw [PL.insert, if_pos he], ?_⟩
  rcases hl : s.processing_list with _ | ⟨e, es⟩
  · have hhead : s.head_key = none := by
      rcases hhk : s.head_key with _ | h0
      · rfl
      · exact absurd (hh h0 hhk) (by simp [hl])
    refine ⟨none, s, ?_, hl, ?_, by simp, ?_, fun _ => rfl, by simp⟩
    · simp [PL.seek, hl]
    · simp [PL.delivered, hhead]
    · simp [PL.delivered, hhead, hl]
  · rcases hhk : s.head_key with _ | h0
    · obtain ⟨p, hp⟩ : ∃ p, (e :: es).getLast? = some p :=
        ⟨_, List.getLast?_eq_getLast _ (by simp)⟩
      have hlk : PL.lastKey (e :: es) = some p.1 := by
        rw [PL.lastKey, hp, Option.map_some']
      have hn' : ((e :: es).map Prod.fst).Nodup := by rw [← hl]; exact hn
      have hdelfull : PL.delivered (⟨e :: es, PL.lastKey (e :: es)⟩ : PL.State K α)
          = e :: es := by
        rw [hlk]
        exact PL.delivered_full hn' hlk
      refine ⟨some (e :: es), ⟨e :: es, PL.lastKey (e :: es)⟩, ?_, rfl, hdelfull, ?_, ?_, ?_, ?_⟩
      · simp [PL.seek, hl, hhk]
      · rw [hdelfull, Option.getD_some]
        simp only [PL.delivered, hhk, List.nil_append]
      · constructor
        · intro habs
          exact absurd habs (by simp)
        · intro heq
          simp only [PL.delivered, hhk] at heq
          exact absurd heq.symm (List.cons_ne_nil e es)
      · intro habs
        exact absurd habs (by simp)
      · intro l hlw
        injection hlw with hlw
        rw [← hlw]
        simp
    · have hmem : h0 ∈ (e :: es).map Prod.fst := by rw [← hl]; exact hh h0 hhk
      have hn' : ((e :: es).map Prod.fst).Nodup := by rw [← hl]; exact hn
      obtain ⟨i, hi⟩ := PL.keyIndex?_of_mem hmem
      have hdels : PL.delivered s = (e :: es).take (i + 1) := by
        simp only [PL.delivered, hhk, hl, hi]
      by_cases hre : (List.drop (i + 1) (e :: es)).isEmpty = true
      · have hrest : List.drop (i + 1) (e :: es) = [] := by simpa using hre
        have hlen : (e :: es).length ≤ i + 1 := List.drop_eq_nil_iff.mp hrest
        have hdelall : PL.delivered s = e :: es := by
          rw [hdels]
          exact List.take_of_length_le hlen
        refine ⟨none, s, ?_, hl, hdelall, by simp, by simp [hdelall], fun _ => rfl, by simp⟩
        simp only [List.length_cons] at hlen
        simp [PL.seek, hl, hhk, hi, hre]
        omega
      · have hrest : List.drop (i + 1) (e :: es) ≠ [] := by simpa using hre
        have hfalse : (List.drop (i + 1) (e :: es)).isEmpty = false := by simpa using hre
        have hlast : PL.lastKey (List.drop (i + 1) (e :: es)) = PL.lastKey (e :: es) :=
          PL.lastKey_drop hrest
        obtain ⟨p, hp⟩ : ∃ p, (e :: es).getLast? = some p :=
          ⟨_, List.getLast?_eq_getLast _ (by simp)⟩
        have hlk : PL.lastKey (e :: es) = some p.1 := by
          rw [PL.lastKey, hp, Option.map_some']
        have hdelfull : PL.delivered
            (⟨e :: es, PL.lastKey (List.drop (i + 1) (e :: es))⟩ : PL.State K α)
            = e :: es := by
          rw [hlast, hlk]
          exact PL.delivered_full hn' hlk
        refine ⟨some (List.drop (i + 1) (e :: es)),
          ⟨e :: es, PL.lastKey (List.drop (i + 1) (e :: es))⟩, ?_, rfl, hdelfull, ?_, ?_, ?_, ?_⟩
        · have hlen3 : ¬ (e :: es).length ≤ i + 1 :=
            fun hle => hrest (List.drop_eq_nil_iff.mpr hle)
          simp only [List.length_cons] at hlen3
          simp [PL.seek, hl, hhk, hi, hfalse]
          omega
        · rw [hdelfull, hdels, Option.getD_some, List.take_append_drop]
        · constructor
          · intro habs
            exact absurd habs (by simp)
          · intro heq
            rw [hdels] at heq
            have hlen : ¬ (e :: es).length ≤ i + 1 :=
              fun hle => hrest (List.drop_eq_nil_iff.mpr hle)
            have hlen2 : ((e :: es).take (i + 1)).length = (e :: es).length := by rw [heq]
            rw [List.length_take] at hlen2
            omega
        · intro habs
          exact absurd habs (by simp)
        · intro l hlw
          injection hlw with hlw
          rw [← hlw]
          exact hrest

/-- C8 witness: `insert 0 10; insert 1 20; seek` returns the whole ledger and
marks key 1; a second `seek` returns `None` and changes nothing; re-inserting
key 1 is a no-op; after `insert 2 30`, `seek` returns exactly the entry for
key 2. -/
theorem C8_processing_list_witness :
    PL.insert (PL.insert (⟨[], none⟩ : PL.State ℕ ℕ) 0 10) 1 20 =
      (⟨[(0, 10), (1, 20)], none⟩ : PL.State ℕ ℕ) ∧
    PL.seek (⟨[(0, 10), (1, 20)], none⟩ : PL.State ℕ ℕ) =
      some (some [(0, 10), (1, 20)], ⟨[(0, 10), (1, 20)], some 1⟩) ∧
    PL.seek (⟨[(0, 10), (1, 20)], some 1⟩ : PL.State ℕ ℕ) =
      some (none, ⟨[(0, 10), (1, 20)], some 1⟩) ∧
    PL.insert (⟨[(0, 10), (1, 20)], some 1⟩ : PL.State ℕ ℕ) 1 20 =
      ⟨[(0, 10), (1, 20)], some 1⟩ ∧
    PL.seek (PL.insert (⟨[(0, 10), (1, 20)], some 1⟩ : PL.State ℕ ℕ) 2 30) =
      some (some [(2, 30)], ⟨[(0, 10), (1, 20), (2, 30)], some 2⟩) := by
  have h2 : PL.Reach (⟨[(0, 10), (1, 20)], none⟩ : PL.State ℕ ℕ) := by
    have h0 : PL.Reach (⟨[], none⟩ : PL.State ℕ ℕ) := PL.Reach.empty
    have h1 := PL.Reach.ins 0 10 h0
    have h2' := PL.Reach.ins 1 20 h1
    simpa [PL.insert, PL.existsKey] using h2'
  have hseek2 : PL.seek (⟨[(0, 10), (1, 20)], none⟩ : PL.State ℕ ℕ) =
      some (some [(0, 10), (1, 20)], ⟨[(0, 10), (1, 20)], some 1⟩) := by decide
  have h3 : PL.Reach (⟨[(0, 10), (1, 20)], some 1⟩ : PL.State ℕ ℕ) :=
    PL.Reach.sk h2 hseek2
  refine ⟨by decide, by decide, by decide, ?_, by decide⟩
  exact (C8_processing_list _ h3).1 1 20 (by decide)

/-- Helper: Python's `max` raises exactly on the empty list. -/
theorem maxQ?_eq_none_iff {l : List ℚ} : maxQ? l = none ↔ l = [] := by
  cases l <;> simp [maxQ?]

/-- Helper: `maxQ?` on a cons with a non-empty tail. -/
theorem maxQ?_cons_some {x : ℚ} {xs : List ℚ} {m' : ℚ} (h : maxQ? xs = some m') :
    maxQ? (x :: xs) = some (max x m') := by
  rw [maxQ?, h]

/-- Helper: `maxQ?` on a singleton-producing cons. -/
theorem maxQ?_cons_none {x : ℚ} {xs : List ℚ} (h : maxQ? xs = none) :
    maxQ? (x :: xs) = some x := by
  rw [maxQ?, h]

/-- Helper: the maximum is a member and an upper bound. -/
theorem maxQ?_spec {l : List ℚ} {m : ℚ} (h : maxQ? l = some m) :
    m ∈ l ∧ ∀ y ∈ l, y ≤ m := by
  induction l generalizing m with
  | nil => simp [maxQ?] at h
  | cons x xs ih =>
    cases hxs : maxQ? xs with
    | none =>
      rw [maxQ?_cons_none hxs] at h
      injection h with h
      rw [maxQ?_eq_none_iff.mp hxs]
      simp [← h]
    | some m' =>
      rw [maxQ?_cons_some hxs] at h
      injection h with h
      obtain ⟨hmem, hub⟩ := ih hxs
      constructor
      · rcases max_cases x m' with ⟨hmax, -⟩ | ⟨hmax, -⟩
        · rw [← h, hmax]
          exact List.mem_cons_self _ _
        · rw [← h, hmax]
          exact List.mem_cons_of_mem _ hmem
      · intro y hy
        rcases List.mem_cons.mp hy with rfl | hy
        · exact h ▸ le_max_left _ _
        · exact le_trans (hub y hy) (h ▸ le_max_right _ _)

/-- Helper: Python's `min` raises exactly on the empty list. -/
theorem minQ?_eq_none_iff {l : List ℚ} : minQ? l = none ↔ l = [] := by
  cases l <;> simp [minQ?]

/-- Helper: `minQ?` on a cons with a non-empty tail. -/
theorem minQ?_cons_some {x : ℚ} {xs : List ℚ} {m' : ℚ} (h : minQ? xs = some m') :
    minQ? (x :: xs) = some (min x m') := by
  rw [minQ?, h]

/-- Helper: `minQ?` on a singleton-producing cons. -/
theorem minQ?_cons_none {x : ℚ} {xs : List ℚ} (h : minQ? xs = none) :
    minQ? (x :: xs) = some x := by
  rw [minQ?, h]

/-- Helper: the minimum is a member and a lower bound. -/
theorem minQ?_spec {l : List ℚ} {m : ℚ} (h : minQ? l = some m) :
    m ∈ l ∧ ∀ y ∈ l, m ≤ y := by
  induction l generalizing m with
  | nil => simp [minQ?] at h
  | cons x xs ih =>
    cases hxs : minQ? xs with
    | none =>
      rw [minQ?_cons_none hxs] at h
      injection h with h
      rw [minQ?_eq_none_iff.mp hxs]
      simp [← h]
    | some m' =>
      rw [minQ?_cons_some hxs] at h
      injection h with h
      obtain ⟨hmem, hlb⟩ := ih hxs
      constructor
      · rcases min_cases x m' with ⟨hmin, -⟩ | ⟨hmin, -⟩
        · rw [← h, hmin]
          exact List.mem_cons_self _ _
        · rw [← h, hmin]
          exact List.mem_cons_of_mem _ hmem
      · intro y hy
        rcases List.mem_cons.mp hy with rfl | hy
        · exact h ▸ min_le_left _ _
        · exact le_trans (h ▸ min_le_right _ _) (hlb y hy)

/-- Helper: the nonempty list of per-timeline maxima, unpacked pointwise. -/
theorem collectMaxima_to_forall₂ {lls : List (List PB.Seg)} {ms : List ℚ}
    (h : PB.collectMaxima lls = some ms) :
    List.Forall₂ (fun l m => maxQ? (l.map PB.Seg.stop) = some m) lls ms := by
  induction lls generalizing ms with
  | nil =>
    rw [PB.collectMaxima] at h
    injection h with h
    rw [← h]
    exact List.Forall₂.nil
  | cons l ls ih =>
    rw [PB.collectMaxima] at h
    cases hl : maxQ? (l.map PB.Seg.stop) with
    | none => rw [hl] at h; exact absurd h (by simp)
    | some m =>
      cases hls : PB.collectMaxima ls with
      | none => rw [hl, hls] at h; exact absurd h (by simp)
      | some ms' =>
        rw [hl, hls] at h
        injection h with h
        rw [← h]
        exact List.Forall₂.cons hl (ih hls)

/-- Helper: repack pointwise maxima into `collectMaxima`. -/
theorem collectMaxima_of_forall₂ {lls : List (List PB.Seg)} {ms : List ℚ}
    (h : List.Forall₂ (fun l m => maxQ? (l.map PB.Seg.stop) = some m) lls ms) :
    PB.collectMaxima lls = some ms := by
  induction h with
  | nil => rfl
  | cons hm _ ih =>
    rw [PB.collectMaxima, hm, ih]

/-- Helper: a `Forall₂` can be strengthened by a predicate holding on the
right-hand list. -/
theorem forall₂_and_right {γ δ : Type} {R : γ → δ → Prop} {Q : δ → Prop}
    {l₁ : List γ} {l₂ : List δ}
    (h : List.Forall₂ R l₁ l₂) (hq : ∀ b ∈ l₂, Q b) :
    List.Forall₂ (fun a b => R a b ∧ Q b) l₁ l₂ := by
  induction h with
  | nil => exact List.Forall₂.nil
  | cons hr _ ih =>
    refine List.Forall₂.cons ⟨hr, hq _ (List.mem_cons_self _ _)⟩ ?_
    exact ih fun b hb => hq b (List.mem_cons_of_mem _ hb)

/-- Helper: `takeWhile` commutes with a `filter` that keeps every element the
`takeWhile` predicate rejects. -/
theorem takeWhile_filter_comm (p q : PB.Seg → Bool) (l : List PB.Seg)
    (h : ∀ x ∈ l, p x = false → q x = true) :
    (l.filter q).takeWhile p = (l.takeWhile p).filter q := by
  induction l with
  | nil => rfl
  | cons x t ih =>
    have hsub : ∀ y ∈ t, p y = false → q y = true :=
      fun y hy => h y (List.mem_cons_of_mem _ hy)
    cases hp : p x with
    | true =>
      cases hq : q x with
      | true =>
        rw [List.filter_cons_of_pos hq, List.takeWhile_cons_of_pos hp,
          List.takeWhile_cons_of_pos hp, List.filter_cons_of_pos hq, ih hsub]
      | false =>
        rw [List.filter_cons_of_neg (by simp [hq]), List.takeWhile_cons_of_pos hp,
          List.filter_cons_of_neg (by simp [hq]), ih hsub]
    | false =>
      have hq : q x = true := h x (List.mem_cons_self _ _) hp
      rw [List.filter_cons_of_pos hq, List.takeWhile_cons_of_neg (by simp [hp]),
        List.takeWhile_cons_of_neg (by simp [hp]), List.filter_nil]

/-- Helper: filtering away elements strictly below a bound `c ≤ m` does not
change a maximum `m`. -/
theorem maxQ?_filter_ge {l : List ℚ} {m c : ℚ} (h : maxQ? l = some m) (hc : c ≤ m) :
    maxQ? (l.filter (fun y => decide (c ≤ y))) = some m := by
  induction l generalizing m with
  | nil => simp [maxQ?] at h
  | cons x xs ih =>
    cases hxs : maxQ? xs with
    | none =>
      rw [maxQ?_cons_none hxs] at h
      injection h with h
      rw [maxQ?_eq_none_iff.mp hxs]
      subst h
      simp only [List.filter_cons, List.filter_nil, decide_eq_true_eq]
      rw [if_pos hc]
      rfl
    | some m' =>
      rw [maxQ?_cons_some hxs] at h
      injection h with h
      obtain ⟨hmem', hub'⟩ := maxQ?_spec hxs
      by_cases hcx : c ≤ x
      · rw [List.filter_cons_of_pos (by simpa using hcx)]
        by_cases hcm' : c ≤ m'
        · rw [maxQ?_cons_some (ih hxs hcm')]
          exact congrArg some h
        · have hxm : max x m' = x := by
            rcases max_cases x m' with ⟨hm, -⟩ | ⟨hm, h2⟩
            · exact hm
            · exact absurd (hc.trans_eq (h.symm ▸ hm)) hcm'
          have hfil : xs.filter (fun y => decide (c ≤ y)) = [] := by
            rw [List.filter_eq_nil_iff]
            intro a ha
            simp only [decide_eq_true_eq]
            intro hca
            exact hcm' (hca.trans (hub' a ha))
          rw [hfil, maxQ?_cons_none (maxQ?_eq_none_iff.mpr rfl), ← h, hxm]
      · have hxm : max x m' = m' := by
          rcases max_cases x m' with ⟨hm, h2⟩ | ⟨hm, -⟩
          · exact absurd (hc.trans_eq (h.symm.trans hm)) hcx
          · exact hm
        have hm2 : m' = m := by rw [← h, hxm]
        rw [List.filter_cons_of_neg (by simpa using hcx), ← hm2]
        exact ih hxs (hm2 ▸ hc)

/-- Helper: projecting `stop` commutes with filtering on `stop`. -/
theorem map_stop_filter (c : ℚ) (l : List PB.Seg) :
    (l.filter (fun seg => decide (c ≤ seg.stop))).map PB.Seg.stop
      = (l.map PB.Seg.stop).filter (fun y => decide (c ≤ y)) := by
  induction l with
  | nil => rfl
  | cons x t ih =>
    by_cases hx : c ≤ x.stop
    · rw [List.filter_cons_of_pos (by simpa using hx), List.map_cons, List.map_cons,
        List.filter_cons_of_pos (by simpa using hx), ih]
    · rw [List.filter_cons_of_neg (by simpa using hx), List.map_cons,
        List.filter_cons_of_neg (by simpa using hx), ih]

/-- Helper: on a start-sorted list, the `cut_section` prefix is exactly the
subset of segments with `start < spanEnd`. -/
theorem takeWhile_eq_filter_of_sorted (spanEnd : ℚ) (l : List PB.Seg)
    (hs : List.Pairwise (fun a b => a.start ≤ b.start) l) :
    l.takeWhile (fun seg => decide (seg.start < spanEnd))
      = l.filter (fun seg => decide (seg.start < spanEnd)) := by
  induction l with
  | nil => rfl
  | cons x t ih =>
    obtain ⟨hx, ht⟩ := List.pairwise_cons.mp hs
    by_cases hxe : x.start < spanEnd
    · rw [List.takeWhile_cons_of_pos (by simpa using hxe),
        List.filter_cons_of_pos (by simpa using hxe), ih ht]
    · rw [List.takeWhile_cons_of_neg (by simpa using hxe),
        List.filter_cons_of_neg (by simpa using hxe)]
      have hnil : t.filter (fun seg => decide (seg.start < spanEnd)) = [] := by
        rw [List.filter_eq_nil_iff]
        intro a ha
        simp only [decide_eq_true_eq]
        intro hlt
        exact hxe (lt_of_le_of_lt (hx a ha) hlt)
      rw [hnil]

/-- Helper: each member of the scanned lists has its maximum among the
collected maxima. -/
theorem collectMaxima_mem {lls : List (List PB.Seg)} {ms : List ℚ}
    (h : PB.collectMaxima lls = some ms) :
    ∀ l ∈ lls, ∃ m ∈ ms, maxQ? (l.map PB.Seg.stop) = some m := by
  have hf := collectMaxima_to_forall₂ h
  clear h
  induction hf with
  | nil => intro l hl; simp at hl
  | cons hm ht ih =>
    intro l hl
    rcases List.mem_cons.mp hl with rfl | hl
    · exact ⟨_, List.mem_cons_self _ _, hm⟩
    · obtain ⟨m, hmem, hmx⟩ := ih l hl
      exact ⟨m, List.mem_cons_of_mem _ hmem, hmx⟩

/-- Helper: each collected maximum is the maximum of one of the scanned
lists. -/
theorem collectMaxima_mem_right {lls : List (List PB.Seg)} {ms : List ℚ}
    (h : PB.collectMaxima lls = some ms) :
    ∀ m ∈ ms, ∃ l ∈ lls, maxQ? (l.map PB.Seg.stop) = some m := by
  have hf := collectMaxima_to_forall₂ h
  clear h
  induction hf with
  | nil => intro m hm; simp at hm
  | cons hm ht ih =>
    intro m hmem
    rcases List.mem_cons.mp hmem with rfl | hmem
    · exact ⟨_, List.mem_cons_self _ _, hm⟩
    · obtain ⟨l, hl, hmx⟩ := ih m hmem
      exact ⟨l, List.mem_cons_of_mem _ hl, hmx⟩

/-- Helper: `collectMaxima` succeeds exactly when every scanned list is
non-empty. -/
theorem collectMaxima_isSome_iff {lls : List (List PB.Seg)} :
    (∃ ms, PB.collectMaxima lls = some ms) ↔ ∀ l ∈ lls, l ≠ [] := by
  constructor
  · rintro ⟨ms, h⟩ l hl
    obtain ⟨m, -, hmx⟩ := collectMaxima_mem h l hl
    intro hnil
    rw [hnil] at hmx
    simp [maxQ?] at hmx
  · intro h
    induction lls with
    | nil => exact ⟨[], rfl⟩
    | cons l ls ih =>
      obtain ⟨ms, hms⟩ := ih fun l' hl' => h l' (List.mem_cons_of_mem _ hl')
      have hne : l.map PB.Seg.stop ≠ [] := by
        simpa using h l (List.mem_cons_self _ _)
      cases hmx : maxQ? (l.map PB.Seg.stop) with
      | none => exact absurd (maxQ?_eq_none_iff.mp hmx) hne
      | some m =>
        refine ⟨m :: ms, ?_⟩
        rw [PB.collectMaxima, hmx, hms]

/-- Helper: `collectMaxima` preserves length. -/
theorem collectMaxima_length {lls : List (List PB.Seg)} {ms : List ℚ}
    (h : PB.collectMaxima lls = some ms) : ms.length = lls.length :=
  (collectMaxima_to_forall₂ h).length_eq.symm

/-- Helper: a computed next cursor is never behind the current cursor. -/
theorem PB.getNextCursor_ge {st : PB.State} {m : ℚ} (h : PB.getNextCursor st = some m) :
    st.cursor ≤ m := by
  unfold PB.getNextCursor at h
  by_cases hlag : (st.timelines.map (PB.relevantSegments st.cursor)).any List.isEmpty
  · rw [if_pos hlag] at h
    injection h with h
    exact le_of_eq h
  · rw [if_neg hlag] at h
    cases hcm : PB.collectMaxima
        ((st.timelines.map (PB.relevantSegments st.cursor)).map (PB.cutSection st.span_end)) with
    | none =>
      rw [hcm] at h
      exact absurd h (by simp)
    | some ms =>
      rw [hcm] at h
      obtain ⟨hmem, -⟩ := minQ?_spec h
      obtain ⟨l, hl, hmx⟩ := collectMaxima_mem_right hcm m hmem
      obtain ⟨hmmem, -⟩ := maxQ?_spec hmx
      obtain ⟨seg, hsegmem, hstop⟩ := List.mem_map.mp hmmem
      obtain ⟨l', hl', rfl⟩ := List.mem_map.mp hl
      obtain ⟨tl, htl, rfl⟩ := List.mem_map.mp hl'
      have hsegrel : seg ∈ PB.relevantSegments st.cursor tl := by
        have hsplit := List.takeWhile_append_dropWhile
          (fun seg => decide (seg.start < st.span_end)) (PB.relevantSegments st.cursor tl)
        rw [← hsplit]
        exact List.mem_append_left _ hsegmem
      have := List.of_mem_filter hsegrel
      simp only [decide_eq_true_eq] at this
      exact hstop ▸ this

/-- Helper: the batch filter `cursor <= start < cursor` is empty. -/
theorem PB.seekBatch_self (st : PB.State) : PB.seekBatch st st.cursor = [] := by
  unfold PB.seekBatch
  rw [List.filter_eq_nil_iff]
  intro p hp
  obtain ⟨tl, htl, rfl⟩ := List.mem_map.mp hp
  have hnil : tl.segments.filter
      (fun seg => decide (st.cursor ≤ seg.start ∧ seg.start < st.cursor)) = [] := by
    rw [List.filter_eq_nil_iff]
    intro seg hseg
    simp only [decide_eq_true_eq, not_and]
    intro h1 h2
    exact absurd (h1.trans_lt h2) (lt_irrefl _)
  simp [hnil]

/-- Helper: `seek` propagates a `ValueError` from `_get_next_cursor`. -/
theorem PB.seek_eq_none {st : PB.State} (h : PB.getNextCursor st = none) :
    PB.seek st = none := by
  unfold PB.seek
  rw [h]

/-- Helper: the two normal outcomes of `seek`, driven by the computed next
cursor. -/
theorem PB.seek_eq_of_getNextCursor {st : PB.State} {m : ℚ}
    (h : PB.getNextCursor st = some m) :
    PB.seek st = if st.span_end ≤ m then some (.finish, st)
      else some (.batch (PB.seekBatch st m), { st with cursor := m }) := by
  unfold PB.seek
  rw [h]

/-- Helper: facts about any single successful `seek` transition. -/
theorem PB.seek_step_facts {st : PB.State} {r : PB.SeekRes} {st' : PB.State}
    (h : PB.seek st = some (r, st')) :
    st.cursor ≤ st'.cursor ∧ st'.timelines = st.timelines ∧
      st'.span_start = st.span_start ∧ st'.span_end = st.span_end ∧
      (st' = st ∨ st'.cursor < st.span_end) := by
  cases hnc : PB.getNextCursor st with
  | none =>
    rw [PB.seek_eq_none hnc] at h
    exact absurd h (by simp)
  | some m =>
    rw [PB.seek_eq_of_getNextCursor hnc] at h
    by_cases hfin : st.span_end ≤ m
    · rw [if_pos hfin] at h
      simp only [Option.some.injEq, Prod.mk.injEq] at h
      rw [← h.2]
      exact ⟨le_refl _, rfl, rfl, rfl, Or.inl rfl⟩
    · rw [if_neg hfin] at h
      simp only [Option.some.injEq, Prod.mk.injEq] at h
      rw [← h.2]
      exact ⟨PB.getNextCursor_ge hnc, rfl, rfl, rfl, Or.inr (not_le.mp hfin)⟩

/-- Helper: `seek` raises `PlaybackFinish` without mutating the state. -/
theorem PB.seek_finish_eq {st st' : PB.State} (h : PB.seek st = some (.finish, st')) :
    st' = st := by
  cases hnc : PB.getNextCursor st with
  | none =>
    rw [PB.seek_eq_none hnc] at h
    exact absurd h (by simp)
  | some m =>
    rw [PB.seek_eq_of_getNextCursor hnc] at h
    by_cases hfin : st.span_end ≤ m
    · rw [if_pos hfin] at h
      simp only [Option.some.injEq, Prod.mk.injEq] at h
      exact h.2.symm
    · rw [if_neg hfin] at h
      simp at h

/-- Helper: `seek` signals `PlaybackFinish` exactly when the computed next
cursor reaches or exceeds the span end. -/
theorem PB.seek_finish_iff (st : PB.State) :
    (∃ st', PB.seek st = some (.finish, st')) ↔
      ∃ m, PB.getNextCursor st = some m ∧ st.span_end ≤ m := by
  constructor
  · rintro ⟨st', h⟩
    cases hnc : PB.getNextCursor st with
    | none =>
      rw [PB.seek_eq_none hnc] at h
      exact absurd h (by simp)
    | some m =>
      rw [PB.seek_eq_of_getNextCursor hnc] at h
      by_cases hfin : st.span_end ≤ m
      · exact ⟨m, rfl, hfin⟩
      · rw [if_neg hfin] at h
        simp at h
  · rintro ⟨m, hnc, hfin⟩
    refine ⟨st, ?_⟩
    rw [PB.seek_eq_of_getNextCursor hnc, if_pos hfin]

/-- C3 amended: for a Playback created with a span whose start does not
exceed its end, the cursor begins at the span start and, across every
sequence of `seek` calls, never decreases and never exceeds `span.end`;
`seek` signals completion (`PlaybackFinish`) exactly when the computed next
cursor reaches or exceeds `span.end`, and in that case produces no batch and
leaves the cursor and all timelines unchanged. -/
theorem C3_cursor_invariants (timelines : List PB.Timeline) (span : ℚ × ℚ)
    (hspan : span.1 ≤ span.2) :
    (PB.mkPlayback timelines span).cursor = span.1 ∧
    ∀ st, Relation.ReflTransGen PB.SeekStep (PB.mkPlayback timelines span) st →
      st.span_start = span.1 ∧ st.span_end = span.2 ∧ st.timelines = timelines ∧
      span.1 ≤ st.cursor ∧ st.cursor ≤ span.2 ∧
      (∀ r st', PB.seek st = some (r, st') → st.cursor ≤ st'.cursor) ∧
      (∀ st', PB.seek st = some (.finish, st') → st' = st) ∧
      ((∃ st', PB.seek st = some (.finish, st')) ↔
        ∃ m, PB.getNextCursor st = some m ∧ span.2 ≤ m) := by
  refine ⟨rfl, ?_⟩
  intro st hreach
  induction hreach with
  | refl =>
    refine ⟨rfl, rfl, rfl, le_refl _, hspan, ?_, ?_, ?_⟩
    · intro r st' h
      exact (PB.seek_step_facts h).1
    · intro st' h
      exact PB.seek_finish_eq h
    · exact PB.seek_finish_iff _
  | tail hsteps hstep ih =>
    obtain ⟨hss, hse, htl, hlo, hhi, -, -, -⟩ := ih
    rcases hstep with ⟨hseek⟩
    obtain ⟨hc_le, htl', hss', hse', hor⟩ := PB.seek_step_facts hseek
    refine ⟨hss'.trans hss, hse'.trans hse, htl'.trans htl,
      le_trans hlo hc_le, ?_, ?_, ?_, ?_⟩
    · rcases hor with rfl | hlt
      · exact hhi
      · exact le_of_lt (hse ▸ hlt)
    · intro r st' h
      exact (PB.seek_step_facts h).1
    · intro st' h
      exact PB.seek_finish_eq h
    · rw [← hse'.trans hse]
      exact PB.seek_finish_iff _

/-- C3 counterexample: a Playback created with span `(20, 10)` starts with
`cursor = 20`, which already exceeds `span.end = 10` — the claim's invariant
fails when the span is inverted. -/
theorem C3_counterexample :
    (PB.mkPlayback [⟨0, [⟨0, 5⟩]⟩] (20, 10)).cursor = 20 ∧
    ¬ (PB.mkPlayback [⟨0, [⟨0, 5⟩]⟩] (20, 10)).cursor ≤ 10 := by
  constructor
  · rfl
  · show ¬ (20 : ℚ) ≤ 10
    norm_num

/-- C3 witness: one track over span `(0, 10)`; the invariants hold at the
freshly created state. -/
theorem C3_cursor_invariants_witness :
    (0 : ℚ) ≤ 10 ∧
    (PB.mkPlayback [⟨0, [⟨0, 5⟩]⟩] (0, 10)).cursor = 0 ∧
    0 ≤ (PB.mkPlayback [⟨0, [⟨0, 5⟩]⟩] (0, 10)).cursor ∧
    (PB.mkPlayback [⟨0, [⟨0, 5⟩]⟩] (0, 10)).cursor ≤ 10 := by
  have h := C3_cursor_invariants [⟨0, [⟨0, 5⟩]⟩] (0, 10) (by norm_num)
  have h2 := h.2 _ Relation.ReflTransGen.refl
  exact ⟨by norm_num, h.1, h2.2.2.2.1, h2.2.2.2.2.1⟩

/-- Helper: on a start-sorted timeline, the trimmed relevant prefix computed
by the code equals the claim-side relevant in-window subset. -/
theorem PB.cut_relevant_eq_window (st : PB.State) (tl : PB.Timeline)
    (hs : PB.startSorted tl) :
    PB.cutSection st.span_end (PB.relevantSegments st.cursor tl)
      = PB.relevantWindow st tl := by
  unfold PB.cutSection PB.relevantSegments PB.relevantWindow
  rw [takeWhile_eq_filter_of_sorted _ _
    (List.Pairwise.sublist (List.filter_sublist _) hs)]
  rw [List.filter_filter]
  apply List.filter_congr
  intro a ha
  rw [Bool.decide_and]
  exact Bool.and_comm _ _

/-- Helper: `seek` returns or raises `PlaybackFinish` whenever the timelines
are start-sorted and non-empty and every timeline holds a segment with
`end >= cursor` and `start < span.end`. -/
theorem PB.seek_isSome_of_window (st : PB.State)
    (hsort : ∀ tl ∈ st.timelines, PB.startSorted tl)
    (hne : st.timelines ≠ [])
    (hpre : ∀ tl ∈ st.timelines, ∃ seg ∈ tl.segments,
      st.cursor ≤ seg.stop ∧ seg.start < st.span_end) :
    ∃ r st', PB.seek st = some (r, st') := by
  by_cases hlag : (st.timelines.map (PB.relevantSegments st.cursor)).any List.isEmpty
  · have hnc : PB.getNextCursor st = some st.cursor := by
      unfold PB.getNextCursor
      rw [if_pos hlag]
    rw [PB.seek_eq_of_getNextCursor hnc]
    by_cases hf : st.span_end ≤ st.cursor
    · rw [if_pos hf]
      exact ⟨_, _, rfl⟩
    · rw [if_neg hf]
      exact ⟨_, _, rfl⟩
  · have hcuts : ∀ tl ∈ st.timelines,
        PB.cutSection st.span_end (PB.relevantSegments st.cursor tl) ≠ [] := by
      intro tl htl
      rw [PB.cut_relevant_eq_window st tl (hsort tl htl)]
      obtain ⟨seg, hmem, h1, h2⟩ := hpre tl htl
      intro hnil
      have hsegmem : seg ∈ PB.relevantWindow st tl :=
        List.mem_filter.mpr ⟨hmem, by simp [h1, h2]⟩
      rw [hnil] at hsegmem
      simp at hsegmem
    obtain ⟨ms, hms⟩ := collectMaxima_isSome_iff.mpr (by
      intro l hl
      obtain ⟨l', hl', rfl⟩ := List.mem_map.mp hl
      obtain ⟨tl, htl, rfl⟩ := List.mem_map.mp hl'
      exact hcuts tl htl)
    have hms_ne : ms ≠ [] := by
      have hlen := collectMaxima_length hms
      simp only [List.length_map] at hlen
      intro hnil
      rw [hnil] at hlen
      exact hne (List.length_eq_zero.mp hlen.symm)
    cases hmin : minQ? ms with
    | none => exact absurd (minQ?_eq_none_iff.mp hmin) hms_ne
    | some m =>
      have hnc : PB.getNextCursor st = some m := by
        unfold PB.getNextCursor
        rw [if_neg hlag, hms]
        exact hmin
      rw [PB.seek_eq_of_getNextCursor hnc]
      by_cases hf : st.span_end ≤ m
      · rw [if_pos hf]
        exact ⟨_, _, rfl⟩
      · rw [if_neg hf]
        exact ⟨_, _, rfl⟩

/-- Helper: when every timeline has a relevant segment but some timeline's
relevant segments all start at or beyond the span end, `_get_next_cursor`
takes `max` of an empty sequence and `seek` escapes with `ValueError`. -/
theorem PB.seek_none_of_blocked (st : PB.State)
    (hrel : ∀ tl ∈ st.timelines, ∃ seg ∈ tl.segments, st.cursor ≤ seg.stop)
    (hbad : ∃ tl ∈ st.timelines, ∀ seg ∈ tl.segments,
      st.cursor ≤ seg.stop → st.span_end ≤ seg.start) :
    PB.seek st = none := by
  obtain ⟨tl₀, htl₀, hb⟩ := hbad
  have hlagfalse : (st.timelines.map (PB.relevantSegments st.cursor)).any List.isEmpty
      = false := by
    rw [List.any_eq_false]
    intro l hl
    obtain ⟨tl, htl, rfl⟩ := List.mem_map.mp hl
    obtain ⟨seg, hmem, hc⟩ := hrel tl htl
    simp only [List.isEmpty_iff]
    intro hemp
    have hsegmem : seg ∈ PB.relevantSegments st.cursor tl :=
      List.mem_filter.mpr ⟨hmem, by simp [hc]⟩
    rw [hemp] at hsegmem
    simp at hsegmem
  have hcutnil : PB.cutSection st.span_end (PB.relevantSegments st.cursor tl₀) = [] := by
    cases hrel0 : PB.relevantSegments st.cursor tl₀ with
    | nil => rfl
    | cons x rest =>
      have hx : x ∈ PB.relevantSegments st.cursor tl₀ := by
        rw [hrel0]
        exact List.mem_cons_self _ _
      have hxseg : x ∈ tl₀.segments := List.mem_of_mem_filter hx
      have hxc : st.cursor ≤ x.stop := by
        have := List.of_mem_filter hx
        simpa using this
      have hxe : st.span_end ≤ x.start := hb x hxseg hxc
      unfold PB.cutSection
      rw [List.takeWhile_cons_of_neg (by simp [not_lt.mpr hxe])]
  have hnone : PB.collectMaxima
      ((st.timelines.map (PB.relevantSegments st.cursor)).map (PB.cutSection st.span_end))
      = none := by
    cases hcm : PB.collectMaxima
        ((st.timelines.map (PB.relevantSegments st.cursor)).map (PB.cutSection st.span_end)) with
    | none => rfl
    | some ms =>
      have hall := collectMaxima_isSome_iff.mp ⟨ms, hcm⟩
      have hmem : PB.cutSection st.span_end (PB.relevantSegments st.cursor tl₀)
          ∈ (st.timelines.map (PB.relevantSegments st.cursor)).map (PB.cutSection st.span_end) :=
        List.mem_map_of_mem _ (List.mem_map_of_mem _ htl₀)
      exact absurd hcutnil (hall _ hmem)
  apply PB.seek_eq_none
  unfold PB.getNextCursor
  rw [if_neg (by simp [hlagfalse]), hnone]

/-- C10 amended: with start-sorted, non-empty timelines, `seek` is total
(returns a batch or signals `PlaybackFinish`) whenever every timeline has a
segment with `end >= cursor` and `start < span.end`; the empty-maximum
`ValueError` escape fires when every timeline has a relevant segment but some
timeline's relevant segments all have `start >= span.end`; and (for sorted
states) an escape implies the precondition is violated or the timeline list
is empty. -/
theorem C10_seek_totality (st : PB.State)
    (hsort : ∀ tl ∈ st.timelines, PB.startSorted tl) :
    (st.timelines ≠ [] →
      (∀ tl ∈ st.timelines, ∃ seg ∈ tl.segments,
        st.cursor ≤ seg.stop ∧ seg.start < st.span_end) →
      ∃ r st', PB.seek st = some (r, st')) ∧
    ((∀ tl ∈ st.timelines, ∃ seg ∈ tl.segments, st.cursor ≤ seg.stop) →
      (∃ tl ∈ st.timelines, ∀ seg ∈ tl.segments,
        st.cursor ≤ seg.stop → st.span_end ≤ seg.start) →
      PB.seek st = none) ∧
    (PB.seek st = none →
      st.timelines = [] ∨
      ¬ ∀ tl ∈ st.timelines, ∃ seg ∈ tl.segments,
          st.cursor ≤ seg.stop ∧ seg.start < st.span_end) := by
  refine ⟨PB.seek_isSome_of_window st hsort, PB.seek_none_of_blocked st, ?_⟩
  intro hnone
  by_cases hne : st.timelines = []
  · exact Or.inl hne
  · right
    intro hpre
    obtain ⟨r, st', hsome⟩ := PB.seek_isSome_of_window st hsort hne hpre
    rw [hnone] at hsome
    exact absurd hsome (by simp)

/-- C10 counterexample: the claim's precondition does not make `seek` total.
With the single unsorted timeline `[[20,25), [0,5)]` over span `(0,10)` the
precondition holds (segment `[0,5)` has `end >= 0` and `start < 10`) yet
`cut_section` stops at the first segment and `seek` escapes with
`ValueError`; and with no timelines at all the precondition holds vacuously
yet the outer `min()` raises. -/
theorem C10_counterexample :
    (∀ tl ∈ ([⟨0, [⟨20, 25⟩, ⟨0, 5⟩]⟩] : List PB.Timeline), ∃ seg ∈ tl.segments,
      (0 : ℚ) ≤ seg.stop ∧ seg.start < 10) ∧
    PB.seek ⟨[⟨0, [⟨20, 25⟩, ⟨0, 5⟩]⟩], 0, 10, 0⟩ = none ∧
    PB.seek ⟨[], 0, 10, 0⟩ = none := by
  refine ⟨?_, ?_, ?_⟩
  · intro tl htl
    rcases List.mem_singleton.mp htl with rfl
    exact ⟨⟨0, 5⟩, by simp, by norm_num⟩
  · norm_num [PB.seek, PB.getNextCursor, PB.relevantSegments, PB.cutSection,
      PB.collectMaxima, maxQ?, minQ?, PB.seekBatch, List.filter, List.takeWhile]
  · norm_num [PB.seek, PB.getNextCursor, PB.relevantSegments, PB.cutSection,
      PB.collectMaxima, maxQ?, minQ?, PB.seekBatch, List.filter, List.takeWhile]

/-- C10 witness: totality holds on a sorted one-track state meeting the
precondition, and the `ValueError` escape fires on a state where the only
timeline's relevant segment starts beyond the span end. -/
theorem C10_seek_totality_witness :
    (∃ r st', PB.seek ⟨[⟨0, [⟨0, 5⟩]⟩], 0, 10, 0⟩ = some (r, st')) ∧
    PB.seek ⟨[⟨0, [⟨10, 20⟩]⟩], 0, 10, 0⟩ = none := by
  constructor
  · refine (C10_seek_totality ⟨[⟨0, [⟨0, 5⟩]⟩], 0, 10, 0⟩ ?_).1 (by simp) ?_
    · intro tl htl
      rcases List.mem_singleton.mp htl with rfl
      simp [PB.startSorted]
    · intro tl htl
      rcases List.mem_singleton.mp htl with rfl
      exact ⟨⟨0, 5⟩, by simp, by norm_num⟩
  · refine (C10_seek_totality ⟨[⟨0, [⟨10, 20⟩]⟩], 0, 10, 0⟩ ?_).2.1 ?_ ?_
    · intro tl htl
      rcases List.mem_singleton.mp htl with rfl
      simp [PB.startSorted]
    · intro tl htl
      rcases List.mem_singleton.mp htl with rfl
      exact ⟨⟨10, 20⟩, by simp, by norm_num⟩
    · refine ⟨⟨0, [⟨10, 20⟩]⟩, by simp, ?_⟩
      intro seg hseg hc
      rcases List.mem_singleton.mp hseg with rfl
      norm_num

/-- Helper: `Forall₂` against a mapped left list. -/
theorem forall₂_map_left {γ δ ε : Type} {f : γ → ε} {R : ε → δ → Prop}
    {l₁ : List γ} {l₂ : List δ}
    (h : List.Forall₂ (fun a b => R (f a) b) l₁ l₂) :
    List.Forall₂ R (l₁.map f) l₂ := by
  induction h with
  | nil => exact List.Forall₂.nil
  | cons hr _ ih => exact List.Forall₂.cons hr ih

/-- Helper: a lagging timeline (no segment with `end >= cursor`) makes `seek`
return an empty batch with the cursor unchanged, provided the cursor is still
below the span end. -/
theorem PB.seek_lagging (st : PB.State) (hc : st.cursor < st.span_end)
    (hlag2 : ∃ tl ∈ st.timelines, ∀ seg ∈ tl.segments, seg.stop < st.cursor) :
    PB.seek st = some (.batch [], st) := by
  obtain ⟨tl₀, htl₀, hb⟩ := hlag2
  have hlagtrue : (st.timelines.map (PB.relevantSegments st.cursor)).any List.isEmpty
      = true := by
    rw [List.any_eq_true]
    refine ⟨PB.relevantSegments st.cursor tl₀, List.mem_map_of_mem _ htl₀, ?_⟩
    simp only [List.isEmpty_iff]
    rw [PB.relevantSegments, List.filter_eq_nil_iff]
    intro seg hseg
    simp only [decide_eq_true_eq, not_le]
    exact hb seg hseg
  have hnc : PB.getNextCursor st = some st.cursor := by
    unfold PB.getNextCursor
    rw [if_pos hlagtrue]
  rw [PB.seek_eq_of_getNextCursor hnc, if_neg (not_le.mpr hc), PB.seekBatch_self]

/-- Helper: once `seek` has returned a batch, an immediate second `seek` on
the resulting state returns an empty batch and leaves the state unchanged,
for states whose segments satisfy `start <= end`. -/
theorem PB.seek_stable (st : PB.State)
    (hwf : ∀ tl ∈ st.timelines, ∀ seg ∈ tl.segments, seg.start ≤ seg.stop)
    {b : List (PB.Timeline × List PB.Seg)} {st' : PB.State}
    (h : PB.seek st = some (.batch b, st')) :
    PB.seek st' = some (.batch [], st') := by
  cases hnc : PB.getNextCursor st with
  | none =>
    rw [PB.seek_eq_none hnc] at h
    exact absurd h (by simp)
  | some m =>
    rw [PB.seek_eq_of_getNextCursor hnc] at h
    by_cases hfin : st.span_end ≤ m
    · rw [if_pos hfin] at h
      simp at h
    · rw [if_neg hfin] at h
      simp only [Option.some.injEq, Prod.mk.injEq] at h
      obtain ⟨-, hst'⟩ := h
      subst hst'
      have hmlt : m < st.span_end := not_le.mp hfin
      unfold PB.getNextCursor at hnc
      by_cases hlag : (st.timelines.map (PB.relevantSegments st.cursor)).any List.isEmpty
      · rw [if_pos hlag] at hnc
        injection hnc with hnc
        subst hnc
        have hnc0 : PB.getNextCursor st = some st.cursor := by
          unfold PB.getNextCursor
          rw [if_pos hlag]
        show PB.seek st = some (.batch [], st)
        rw [PB.seek_eq_of_getNextCursor hnc0, if_neg hfin, PB.seekBatch_self]
      · rw [if_neg hlag] at hnc
        cases hcm : PB.collectMaxima
            ((st.timelines.map (PB.relevantSegments st.cursor)).map
              (PB.cutSection st.span_end)) with
        | none =>
          rw [hcm] at hnc
          exact absurd hnc (by simp)
        | some ms =>
          rw [hcm] at hnc
          have hmin : minQ? ms = some m := hnc
          have hnc0 : PB.getNextCursor st = some m := by
            unfold PB.getNextCursor
            rw [if_neg hlag, hcm]
            exact hmin
          have hcle : st.cursor ≤ m := PB.getNextCursor_ge hnc0
          obtain ⟨-, hlb⟩ := minQ?_spec hmin
          have hrel_eq : ∀ tl ∈ st.timelines,
              PB.relevantSegments m tl
                = (PB.relevantSegments st.cursor tl).filter
                    (fun seg => decide (m ≤ seg.stop)) := by
            intro tl htl
            unfold PB.relevantSegments
            rw [List.filter_filter]
            apply List.filter_congr
            intro a ha
            cases hma : decide (m ≤ a.stop) with
            | true =>
              have hca : st.cursor ≤ a.stop := le_trans hcle (of_decide_eq_true hma)
              simp [hma, hca]
            | false => simp [hma]
          have hcut_eq : ∀ tl ∈ st.timelines,
              PB.cutSection st.span_end (PB.relevantSegments m tl)
                = (PB.cutSection st.span_end (PB.relevantSegments st.cursor tl)).filter
                    (fun seg => decide (m ≤ seg.stop)) := by
            intro tl htl
            rw [hrel_eq tl htl]
            unfold PB.cutSection
            apply takeWhile_filter_comm
            intro x hx hpx
            have hxseg : x ∈ tl.segments := List.mem_of_mem_filter hx
            have hxwf := hwf tl htl x hxseg
            have hxE : st.span_end ≤ x.start := not_lt.mp (of_decide_eq_false hpx)
            exact decide_eq_true (le_trans (le_of_lt hmlt) (le_trans hxE hxwf))
          have hlag' : ((st.timelines.map (PB.relevantSegments m)).any List.isEmpty)
              = false := by
            rw [List.any_eq_false]
            intro l hl
            obtain ⟨tl, htl, rfl⟩ := List.mem_map.mp hl
            obtain ⟨mtl, hmtlmem, hmax⟩ := collectMaxima_mem hcm _
              (List.mem_map_of_mem _ (List.mem_map_of_mem _ htl))
            obtain ⟨hmem2, -⟩ := maxQ?_spec hmax
            obtain ⟨seg, hsegcut, hstop⟩ := List.mem_map.mp hmem2
            have hsegrel : seg ∈ PB.relevantSegments st.cursor tl := by
              have hsplit := List.takeWhile_append_dropWhile
                (fun seg => decide (seg.start < st.span_end))
                (PB.relevantSegments st.cursor tl)
              rw [← hsplit]
              exact List.mem_append_left _ hsegcut
            have hsegm : seg ∈ PB.relevantSegments m tl := by
              have hsegseg : seg ∈ tl.segments := List.mem_of_mem_filter hsegrel
              refine List.mem_filter.mpr ⟨hsegseg, ?_⟩
              exact decide_eq_true (by rw [hstop]; exact hlb mtl hmtlmem)
            simp only [List.isEmpty_iff]
            intro hemp
            rw [hemp] at hsegm
            simp at hsegm
          have hforall := collectMaxima_to_forall₂ hcm
          have hforall2 := forall₂_and_right hforall hlb
          have hcm' : PB.collectMaxima
              ((st.timelines.map (PB.relevantSegments m)).map (PB.cutSection st.span_end))
              = some ms := by
            have hmapeq : (st.timelines.map (PB.relevantSegments m)).map
                  (PB.cutSection st.span_end)
                = ((st.timelines.map (PB.relevantSegments st.cursor)).map
                    (PB.cutSection st.span_end)).map
                    (List.filter (fun seg => decide (m ≤ seg.stop))) := by
              rw [List.map_map, List.map_map, List.map_map]
              apply List.map_congr_left
              intro tl htl
              simp only [Function.comp]
              exact hcut_eq tl htl
            rw [hmapeq]
            apply collectMaxima_of_forall₂
            apply forall₂_map_left
            refine List.Forall₂.imp ?_ hforall2
            intro l mtl hp
            obtain ⟨hmax, hmle⟩ := hp
            rw [map_stop_filter]
            exact maxQ?_filter_ge hmax hmle
          have hnc' : PB.getNextCursor { st with cursor := m } = some m := by
            unfold PB.getNextCursor
            dsimp only
            rw [if_neg (by simp [hlag']), hcm']
            exact hmin
          rw [PB.seek_eq_of_getNextCursor hnc']
          rw [if_neg hfin]
          have hb0 : PB.seekBatch { st with cursor := m } m = [] :=
            PB.seekBatch_self { st with cursor := m }
          rw [hb0]

/-- C2 amended: (1) when the cursor is below the span end and some timeline
has no segment with `end >= cursor`, `seek` returns an empty batch and leaves
the cursor unchanged (a lagging track blocks all tracks); (2) for every state
whose stored segments satisfy `start <= end`, if `seek` returns a batch and
no insertions happen afterwards, a second `seek` returns an empty batch and
leaves the state unchanged. -/
theorem C2_seek_blocking_idempotent (st : PB.State) :
    (st.cursor < st.span_end →
      (∃ tl ∈ st.timelines, ∀ seg ∈ tl.segments, seg.stop < st.cursor) →
      PB.seek st = some (.batch [], st)) ∧
    ((∀ tl ∈ st.timelines, ∀ seg ∈ tl.segments, seg.start ≤ seg.stop) →
      ∀ b st', PB.seek st = some (.batch b, st') →
        PB.seek st' = some (.batch [], st')) :=
  ⟨fun hc hlag => PB.seek_lagging st hc hlag,
   fun hwf _ _ h => PB.seek_stable st hwf h⟩

/-- C2 counterexample: with the single timeline `[[0,5), [20,1), [6,30)]`
(one segment has `end < start`) over span `(0,10)`, the first `seek` returns
the batch `[[0,5)]` and advances the cursor to 5; the immediate second
`seek`, with no insertions in between, raises `PlaybackFinish` instead of
returning an empty batch — refuting the claim for arbitrary Playback
states. -/
theorem C2_counterexample :
    PB.seek ⟨[⟨0, [⟨0, 5⟩, ⟨20, 1⟩, ⟨6, 30⟩]⟩], 0, 10, 0⟩ =
      some (.batch [(⟨0, [⟨0, 5⟩, ⟨20, 1⟩, ⟨6, 30⟩]⟩, [⟨0, 5⟩])],
        ⟨[⟨0, [⟨0, 5⟩, ⟨20, 1⟩, ⟨6, 30⟩]⟩], 0, 10, 5⟩) ∧
    PB.seek ⟨[⟨0, [⟨0, 5⟩, ⟨20, 1⟩, ⟨6, 30⟩]⟩], 0, 10, 5⟩ =
      some (.finish, ⟨[⟨0, [⟨0, 5⟩, ⟨20, 1⟩, ⟨6, 30⟩]⟩], 0, 10, 5⟩) := by
  constructor <;>
    norm_num [PB.seek, PB.getNextCursor, PB.relevantSegments, PB.cutSection,
      PB.collectMaxima, maxQ?, minQ?, PB.seekBatch, List.filter, List.takeWhile]

/-- C2 witness: a lagging second track blocks the first (empty batch, cursor
stays 5), and after a batch-returning `seek` on a well-formed track the next
`seek` is a no-op. -/
theorem C2_seek_blocking_idempotent_witness :
    ((5 : ℚ) < 10 ∧
      PB.seek ⟨[⟨0, [⟨0, 8⟩]⟩, ⟨1, [⟨0, 4⟩]⟩], 0, 10, 5⟩ =
        some (.batch [], ⟨[⟨0, [⟨0, 8⟩]⟩, ⟨1, [⟨0, 4⟩]⟩], 0, 10, 5⟩)) ∧
    PB.seek ⟨[⟨0, [⟨0, 4⟩, ⟨4, 8⟩]⟩], 0, 10, 8⟩ =
      some (.batch [], ⟨[⟨0, [⟨0, 4⟩, ⟨4, 8⟩]⟩], 0, 10, 8⟩) := by
  constructor
  · refine ⟨by norm_num, ?_⟩
    refine (C2_seek_blocking_idempotent ⟨[⟨0, [⟨0, 8⟩]⟩, ⟨1, [⟨0, 4⟩]⟩], 0, 10, 5⟩).1
      (by norm_num) ⟨⟨1, [⟨0, 4⟩]⟩, by simp, ?_⟩
    intro seg hseg
    rcases List.mem_singleton.mp hseg with rfl
    norm_num
  · have hfirst : PB.seek ⟨[⟨0, [⟨0, 4⟩, ⟨4, 8⟩]⟩], 0, 10, 0⟩ =
        some (.batch [(⟨0, [⟨0, 4⟩, ⟨4, 8⟩]⟩, [⟨0, 4⟩, ⟨4, 8⟩])],
          ⟨[⟨0, [⟨0, 4⟩, ⟨4, 8⟩]⟩], 0, 10, 8⟩) := by
      norm_num [PB.seek, PB.getNextCursor, PB.relevantSegments, PB.cutSection,
        PB.collectMaxima, maxQ?, minQ?, PB.seekBatch, List.filter, List.takeWhile]
    refine (C2_seek_blocking_idempotent ⟨[⟨0, [⟨0, 4⟩, ⟨4, 8⟩]⟩], 0, 10, 0⟩).2 ?_ _ _ hfirst
    intro tl htl seg hseg
    rcases List.mem_singleton.mp htl with rfl
    rcases List.mem_cons.mp hseg with rfl | hseg
    · norm_num
    · rcases List.mem_singleton.mp hseg with rfl
      norm_num

/-- C1 amended: for a Playback whose timelines are start-sorted, whose cursor
is below `span.end`, for which the claim-side value `M` — the minimum over
all timelines of the maximum `end` among segments with `end >= cursor` and
`start < span.end` — is defined and below `span.end`, `seek` sets the cursor
to exactly `M` and returns exactly the `(timeline, segments)` pairs whose
list of segments with `old_cursor <= start < M` is non-empty, each list in
timeline order (`seekBatch`). -/
theorem C1_seek_advances_to_min_max (st : PB.State) (M : ℚ)
    (hsort : ∀ tl ∈ st.timelines, PB.startSorted tl)
    (hc : st.cursor < st.span_end)
    (hM : PB.claimNextCursor st = some M)
    (hMlt : M < st.span_end) :
    PB.seek st = some (.batch (PB.seekBatch st M), { st with cursor := M }) := by
  unfold PB.claimNextCursor at hM
  cases hcm : PB.collectMaxima (st.timelines.map (PB.relevantWindow st)) with
  | none =>
    rw [hcm] at hM
    exact absurd hM (by simp)
  | some ms =>
    rw [hcm] at hM
    have hmin : minQ? ms = some M := hM
    have hmapeq : (st.timelines.map (PB.relevantSegments st.cursor)).map
          (PB.cutSection st.span_end)
        = st.timelines.map (PB.relevantWindow st) := by
      rw [List.map_map]
      apply List.map_congr_left
      intro tl htl
      simp only [Function.comp]
      exact PB.cut_relevant_eq_window st tl (hsort tl htl)
    have hlag : (st.timelines.map (PB.relevantSegments st.cursor)).any List.isEmpty
        = false := by
      rw [List.any_eq_false]
      intro l hl
      obtain ⟨tl, htl, rfl⟩ := List.mem_map.mp hl
      have hwne : PB.relevantWindow st tl ≠ [] :=
        (collectMaxima_isSome_iff.mp ⟨ms, hcm⟩) _ (List.mem_map_of_mem _ htl)
      obtain ⟨seg, hseg⟩ := List.exists_mem_of_ne_nil _ hwne
      have hsegmem : seg ∈ tl.segments := List.mem_of_mem_filter hseg
      have hsegc : st.cursor ≤ seg.stop := by
        have := List.of_mem_filter hseg
        simp only [decide_eq_true_eq] at this
        exact this.1
      simp only [List.isEmpty_iff]
      intro hemp
      have hrel : seg ∈ PB.relevantSegments st.cursor tl :=
        List.mem_filter.mpr ⟨hsegmem, by simp [hsegc]⟩
      rw [hemp] at hrel
      simp at hrel
    have hnc : PB.getNextCursor st = some M := by
      unfold PB.getNextCursor
      rw [if_neg (by simp [hlag]), hmapeq, hcm]
      exact hmin
    rw [PB.seek_eq_of_getNextCursor hnc, if_neg (not_le.mpr hMlt)]

/-- C1 counterexample: three explicit Playback states on which the claim, as
stated, fails.  (a) With the one timeline `[[0,20)]` over span `(0,10)` the
claim-side minimum of per-track maxima is 20, but `seek` raises
`PlaybackFinish` and does not set the cursor.  (b) With `[[10,20)]` every
timeline has a segment with `end >= cursor`, yet `seek` escapes with
`ValueError` instead of returning.  (c) With the unsorted timeline
`[[0,5), [50,60), [6,8)]` the claim-side value is 8, but `seek` sets the
cursor to 5 (the code's `cut_section` is a prefix, not a filter). -/
theorem C1_counterexample :
    (PB.claimNextCursor ⟨[⟨0, [⟨0, 20⟩]⟩], 0, 10, 0⟩ = some 20 ∧
      PB.seek ⟨[⟨0, [⟨0, 20⟩]⟩], 0, 10, 0⟩ =
        some (.finish, ⟨[⟨0, [⟨0, 20⟩]⟩], 0, 10, 0⟩)) ∧
    ((∀ tl ∈ ([⟨0, [⟨10, 20⟩]⟩] : List PB.Timeline), ∃ seg ∈ tl.segments,
        (0 : ℚ) ≤ seg.stop) ∧
      PB.seek ⟨[⟨0, [⟨10, 20⟩]⟩], 0, 10, 0⟩ = none) ∧
    (PB.claimNextCursor ⟨[⟨0, [⟨0, 5⟩, ⟨50, 60⟩, ⟨6, 8⟩]⟩], 0, 10, 0⟩ = some 8 ∧
      PB.seek ⟨[⟨0, [⟨0, 5⟩, ⟨50, 60⟩, ⟨6, 8⟩]⟩], 0, 10, 0⟩ =
        some (.batch [(⟨0, [⟨0, 5⟩, ⟨50, 60⟩, ⟨6, 8⟩]⟩, [⟨0, 5⟩])],
          ⟨[⟨0, [⟨0, 5⟩, ⟨50, 60⟩, ⟨6, 8⟩]⟩], 0, 10, 5⟩)) := by
  refine ⟨⟨?_, ?_⟩, ⟨?_, ?_⟩, ⟨?_, ?_⟩⟩
  · norm_num [PB.claimNextCursor, PB.relevantWindow, PB.collectMaxima, maxQ?, minQ?,
      List.filter]
  · norm_num [PB.seek, PB.getNextCursor, PB.relevantSegments, PB.cutSection,
      PB.collectMaxima, maxQ?, minQ?, PB.seekBatch, List.filter, List.takeWhile]
  · intro tl htl
    rcases List.mem_singleton.mp htl with rfl
    exact ⟨⟨10, 20⟩, by simp, by norm_num⟩
  · norm_num [PB.seek, PB.getNextCursor, PB.relevantSegments, PB.cutSection,
      PB.collectMaxima, maxQ?, minQ?, PB.seekBatch, List.filter, List.takeWhile]
  · norm_num [PB.claimNextCursor, PB.relevantWindow, PB.collectMaxima, maxQ?, minQ?,
      List.filter]
  · norm_num [PB.seek, PB.getNextCursor, PB.relevantSegments, PB.cutSection,
      PB.collectMaxima, maxQ?, minQ?, PB.seekBatch, List.filter, List.takeWhile]

/-- C1 witness: the spec's two-track example.  Track A covers to `t = 15`
with a gap, track B contiguously to `t = 8`: `seek` yields cursor 8 and the
segments with `start < 8`.  After inserting `[8,12)` into track B, the next
`seek` returns from both tracks exactly the segments with `start` in
`[8,12)` and sets the cursor to 12. -/
theorem C1_seek_advances_to_min_max_witness :
    (PB.claimNextCursor ⟨[⟨0, [⟨0, 5⟩, ⟨10, 15⟩]⟩, ⟨1, [⟨0, 4⟩, ⟨4, 8⟩]⟩], 0, 100, 0⟩
        = some 8 ∧
      PB.seek ⟨[⟨0, [⟨0, 5⟩, ⟨10, 15⟩]⟩, ⟨1, [⟨0, 4⟩, ⟨4, 8⟩]⟩], 0, 100, 0⟩ =
        some (.batch [(⟨0, [⟨0, 5⟩, ⟨10, 15⟩]⟩, [⟨0, 5⟩]),
            (⟨1, [⟨0, 4⟩, ⟨4, 8⟩]⟩, [⟨0, 4⟩, ⟨4, 8⟩])],
          ⟨[⟨0, [⟨0, 5⟩, ⟨10, 15⟩]⟩, ⟨1, [⟨0, 4⟩, ⟨4, 8⟩]⟩], 0, 100, 8⟩)) ∧
    (PB.claimNextCursor
        ⟨[⟨0, [⟨0, 5⟩, ⟨10, 15⟩]⟩, ⟨1, [⟨0, 4⟩, ⟨4, 8⟩, ⟨8, 12⟩]⟩], 0, 100, 8⟩
        = some 12 ∧
      PB.seek ⟨[⟨0, [⟨0, 5⟩, ⟨10, 15⟩]⟩, ⟨1, [⟨0, 4⟩, ⟨4, 8⟩, ⟨8, 12⟩]⟩], 0, 100, 8⟩ =
        some (.batch [(⟨0, [⟨0, 5⟩, ⟨10, 15⟩]⟩, [⟨10, 15⟩]),
            (⟨1, [⟨0, 4⟩, ⟨4, 8⟩, ⟨8, 12⟩]⟩, [⟨8, 12⟩])],
          ⟨[⟨0, [⟨0, 5⟩, ⟨10, 15⟩]⟩, ⟨1, [⟨0, 4⟩, ⟨4, 8⟩, ⟨8, 12⟩]⟩], 0, 100, 12⟩)) := by
  constructor
  · have hM : PB.claimNextCursor
        ⟨[⟨0, [⟨0, 5⟩, ⟨10, 15⟩]⟩, ⟨1, [⟨0, 4⟩, ⟨4, 8⟩]⟩], 0, 100, 0⟩ = some 8 := by
      norm_num [PB.claimNextCursor, PB.relevantWindow, PB.collectMaxima, maxQ?, minQ?,
        List.filter]
    refine ⟨hM, ?_⟩
    have h := C1_seek_advances_to_min_max
      ⟨[⟨0, [⟨0, 5⟩, ⟨10, 15⟩]⟩, ⟨1, [⟨0, 4⟩, ⟨4, 8⟩]⟩], 0, 100, 0⟩ 8
      (by
        intro tl htl
        rcases List.mem_cons.mp htl with rfl | htl
        · norm_num [PB.startSorted, List.pairwise_cons]
        · rcases List.mem_singleton.mp htl with rfl
          norm_num [PB.startSorted, List.pairwise_cons])
      (by norm_num) hM (by norm_num)
    rw [h]
    norm_num [PB.seekBatch, List.filter]
  · have hM : PB.claimNextCursor
        ⟨[⟨0, [⟨0, 5⟩, ⟨10, 15⟩]⟩, ⟨1, [⟨0, 4⟩, ⟨4, 8⟩, ⟨8, 12⟩]⟩], 0, 100, 8⟩
        = some 12 := by
      norm_num [PB.claimNextCursor, PB.relevantWindow, PB.collectMaxima, maxQ?, minQ?,
        List.filter]
    refine ⟨hM, ?_⟩
    have h := C1_seek_advances_to_min_max
      ⟨[⟨0, [⟨0, 5⟩, ⟨10, 15⟩]⟩, ⟨1, [⟨0, 4⟩, ⟨4, 8⟩, ⟨8, 12⟩]⟩], 0, 100, 8⟩ 12
      (by
        intro tl htl
        rcases List.mem_cons.mp htl with rfl | htl
        · norm_num [PB.startSorted, List.pairwise_cons]
        · rcases List.mem_singleton.mp htl with rfl
          norm_num [PB.startSorted, List.pairwise_cons])
      (by norm_num) hM (by norm_num)
    rw [h]
    norm_num [PB.seekBatch, List.filter]
